import Mathlib

/-!
Verification of the plagiarism-detection core of the PlagiarismControl
repository (backend detector `plagiarismDetector.js` and the
`/api/analyze` route of `server.js`).

Strings are modelled as `List Char`.  JavaScript `Number` arithmetic is
modelled with exact rationals (`ℚ`); `Math.round`/`Math.min`/`Math.max`
are modelled by their exact counterparts.  Regular expressions used by
the source are modelled by equivalent explicit scans, documented at each
definition.  The md5 content fingerprint (`crypto.createHash('md5')`) is
external library code; the detector observes fingerprints only through
equality of digests, and it is modelled by an injective stand-in.
-/

namespace PC

abbrev Str := List Char

/-- Build a `Str` from a string literal. -/
def S (s : String) : Str := s.data

/-- JavaScript `\s` (whitespace class), restricted to the ASCII range in
which the repository's data lives. -/
def isWs (c : Char) : Bool :=
  c = ' ' || c = '\t' || c = '\n' || c = '\r' || c = '\x0b' || c = '\x0c'

/-- JavaScript `\w` = `[A-Za-z0-9_]`. -/
def isWordChar (c : Char) : Bool := c.isAlpha || c.isDigit || c = '_'

/-- `s.split('\n')` of JavaScript. -/
def splitNl : Str → List Str
  | [] => [[]]
  | c :: cs =>
    if c = '\n' then [] :: splitNl cs
    else
      match splitNl cs with
      | [] => [[c]]
      | l :: ls => (c :: l) :: ls

/-- `lines.join('\n')` of JavaScript. -/
def joinNl : List Str → Str
  | [] => []
  | [l] => l
  | l :: ls => l ++ '\n' :: joinNl ls

/-- JavaScript `String.prototype.trim` (whitespace from both ends). -/
def trimStr (l : Str) : Str := ((l.dropWhile isWs).reverse.dropWhile isWs).reverse

/-! ## CodeNormalizer (plagiarismDetector.js lines 7-84) -/

/-- The four ECMAScript LineTerminator characters (LF, CR, LS, PS):
`.` never matches one, and a multiline `$` matches right before one. -/
def isLineTerm (c : Char) : Bool := c = '\n' || c = '\r' || c = '\u2028' || c = '\u2029'

/-- State machine of `code.replace(/#.*$/gm, '')`: outside a comment
(state `false`) characters are copied and a `#` opens a comment; inside
a comment (state `true`) characters are dropped; a line terminator is
always copied and closes any comment, because `.` does not match it
and the multiline `$` matches immediately before it (in particular a
lone `\r` ends the removed span, so text after a mid-line carriage
return survives). -/
def stripHashGo : Bool → Str → Str
  | _, [] => []
  | skip, c :: cs =>
    if isLineTerm c then c :: stripHashGo false cs
    else if skip then stripHashGo true cs
    else if c = '#' then stripHashGo true cs
    else c :: stripHashGo false cs

/-- `code.replace(/#.*$/gm, '')`. -/
def removeHashComments (s : Str) : Str := stripHashGo false s

/-- Split a string at the occurrences of a triple-quote delimiter
`qqq`, scanning left to right exactly as the regex engine scans for
`"""[\s\S]*?"""`: at each position, if the delimiter starts here, cut
and continue after it, otherwise advance one character. -/
def splitTriples (q : Char) : Str → List Str
  | c1 :: c2 :: c3 :: rest =>
    if c1 = q ∧ c2 = q ∧ c3 = q then [] :: splitTriples q rest
    else
      match splitTriples q (c2 :: c3 :: rest) with
      | [] => [[c1]]
      | l :: ls => (c1 :: l) :: ls
  | s => [s]

/-- Reassemble the segments produced by `splitTriples`, deleting the
text of every lazily-matched delimiter pair: segments at even positions
survive, segments at odd positions (the `[\s\S]*?` bodies) are deleted
together with their two delimiters, and a final unpaired delimiter is
kept verbatim (the regex finds no match for it). -/
def joinTriplePairs (q : Char) : List Str → Str
  | [] => []
  | [s] => s
  | [s, t] => s ++ [q, q, q] ++ t
  | s :: _ :: rest => s ++ joinTriplePairs q rest

/-- `code.replace(/qqq[\s\S]*?qqq/g, '')` for a triple-quote delimiter
made of the character `q`. -/
def removeTriples (q : Char) (s : Str) : Str := joinTriplePairs q (splitTriples q s)

/-- `CodeNormalizer.removeComments`: strip `#` line comments, then
`"""…"""` blocks, then `'''…'''` blocks (in the source's order). -/
def removeComments (s : Str) : Str :=
  removeTriples '\'' (removeTriples '"' (removeHashComments s))

/-- `CodeNormalizer.normalizeWhitespace`: trim every line, drop lines
that become empty, rejoin with `\n`. -/
def normalizeWhitespace (s : Str) : Str :=
  joinNl (((splitNl s).map trimStr).filter (fun l => !l.isEmpty))

/-- Maximal runs of the string, each tagged with whether it consists of
word characters; adjacent runs alternate.  This is the scan underlying
both `/\b[a-zA-Z_][a-zA-Z0-9_]*\b/g` and `/\W+/`. -/
def chunks : Str → List (Bool × Str)
  | [] => []
  | c :: cs =>
    match chunks cs with
    | [] => [(isWordChar c, [c])]
    | (b, run) :: rest =>
      if isWordChar c = b then (b, c :: run) :: rest
      else (isWordChar c, [c]) :: (b, run) :: rest

/-- Concatenate tagged runs back into a string. -/
def unchunk (L : List (Bool × Str)) : Str := (L.map Prod.snd).flatten

/-- `code.match(/\b[a-zA-Z_][a-zA-Z0-9_]*\b/g)`: the maximal word runs
whose first character is not a digit.  (A run starting with a digit can
satisfy neither the leading character class nor the word boundary.) -/
def identGuard (bc : Bool × Str) : Option Str :=
  if bc.1 && (match bc.2 with | c :: _ => !c.isDigit | [] => false) then some bc.2 else none

def identTokens (s : Str) : List Str := (chunks s).filterMap identGuard

/-- The keyword set of `CodeNormalizer.normalizeVariableNames`. -/
def pyKeywords : List Str :=
  [S "def", S "class", S "import", S "from", S "if", S "else", S "elif", S "for", S "while",
   S "return", S "try", S "except", S "finally", S "with", S "as", S "break", S "continue",
   S "pass", S "raise", S "assert", S "yield", S "lambda", S "True", S "False", S "None",
   S "and", S "or", S "not", S "in", S "is", S "print", S "range", S "len", S "str", S "int",
   S "float", S "list", S "dict", S "set", S "tuple", S "open", S "file"]

/-- Association-list lookup (insertion-ordered, first match wins), the
observable behaviour of the source's `Map`. -/
def alookup : List (Str × Str) → Str → Option Str
  | [], _ => none
  | (k, v) :: rest, x => if x = k then some v else alookup rest x

/-- The decimal digit character for `d < 10`. -/
def digitChar (d : ℕ) : Char := Char.ofNat (48 + d)

/-- Helper for `natDigits`; the first argument is recursion fuel, and
`n + 1` units always suffice. -/
def natDigitsGo : ℕ → ℕ → Str → Str
  | 0, _, acc => acc
  | fuel + 1, n, acc =>
    if n < 10 then digitChar n :: acc
    else natDigitsGo fuel (n / 10) (digitChar (n % 10) :: acc)

/-- Decimal digits of a natural number, most significant first
(JavaScript number-to-string for the nonnegative integers produced by
`varCounter`). -/
def natDigits (n : ℕ) : Str := natDigitsGo (n + 1) n []

/-- Folded numeric value of a decimal digit string. -/
def digitsVal (l : Str) : ℕ := l.foldl (fun a c => 10 * a + (c.toNat - 48)) 0

/-- The generic name `var${n}`. -/
def varName (n : Nat) : Str := 'v' :: 'a' :: 'r' :: natDigits n

/-- The first-seen-order identifier map of
`CodeNormalizer.normalizeVariableNames`: walk the token list, and give
each not-yet-mapped non-keyword token the next sequential generic name
(`varCounter` always equals the size of the map). -/
def buildMapGo : List Str → List (Str × Str) → List (Str × Str)
  | [], acc => acc
  | t :: ts, acc =>
    if t ∈ pyKeywords ∨ (alookup acc t).isSome then buildMapGo ts acc
    else buildMapGo ts (acc ++ [(t, varName acc.length)])

def buildMapping (ts : List Str) : List (Str × Str) := buildMapGo ts []

/-- `normalizedCode.replace(new RegExp('\\b' + original + '\\b', 'g'),
normalized)` where `original` is a word string: every maximal word run
equal to `original` is replaced (an occurrence surrounded by word
boundaries is exactly a maximal run). -/
def replaceWord (orig repl : Str) (code : Str) : Str :=
  unchunk ((chunks code).map (fun bc => if bc.1 = true ∧ bc.2 = orig then (bc.1, repl) else bc))

/-- Apply the mapping entries one after the other, in insertion order,
as the source's `for (const [original, normalized] of varMapping)`. -/
def applyMapping (m : List (Str × Str)) (code : Str) : Str :=
  m.foldl (fun acc e => replaceWord e.1 e.2 acc) code

/-- `CodeNormalizer.normalizeVariableNames`. -/
def normalizeVariableNames (code : Str) : Str :=
  applyMapping (buildMapping (identTokens code)) code

/-- `CodeNormalizer.normalizeCode`. -/
def normalizeCode (code : Str) (normalizeVars : Bool) : Str :=
  let c1 := removeComments code
  let c2 := normalizeWhitespace c1
  if normalizeVars then normalizeVariableNames c2 else c2

/-! ## Scorer (plagiarismDetector.js lines 134-176) -/

/-- JavaScript `Math.round` (half away from zero toward plus infinity,
exactly `⌊x + 1/2⌋`). -/
def jsRound (x : ℚ) : ℤ := ⌊x + 1 / 2⌋

/-- `s.replace(/\s+/g, '')` as performed by
`string-similarity.compareTwoStrings`. -/
def stripWs (s : Str) : Str := s.filter (fun c => !isWs c)

/-- Consecutive character bigrams. -/
def bigrams : Str → List (Char × Char)
  | a :: b :: rest => (a, b) :: bigrams (b :: rest)
  | _ => []

/-- Remove the first occurrence of a bigram (one available copy in the
source's count map). -/
def eraseFirst (x : Char × Char) : List (Char × Char) → List (Char × Char)
  | [] => []
  | y :: ys => if y = x then ys else y :: eraseFirst x ys

/-- The intersection loop of `compareTwoStrings`: walk the second
string's bigrams, consuming one available copy from the first string's
bigram multiset per hit. -/
def diceLoop : List (Char × Char) → List (Char × Char) → Nat
  | [], _ => 0
  | b :: rest, avail =>
    if b ∈ avail then diceLoop rest (eraseFirst b avail) + 1 else diceLoop rest avail

/-- `stringSimilarity.compareTwoStrings` (the Dice bigram coefficient of
the string-similarity npm package, v4): strip whitespace, return 1 for
identical strings, 0 when either has fewer than 2 characters, else
`2·|bigram intersection| / (|a| + |b| - 2)`. -/
def compareTwoStrings (s1 s2 : Str) : ℚ :=
  let a := stripWs s1
  let b := stripWs s2
  if a = b then 1
  else if a.length < 2 ∨ b.length < 2 then 0
  else (2 * (diceLoop (bigrams b) (bigrams a) : ℚ)) / ((a.length + b.length - 2 : ℕ) : ℚ)

/-- `new natural.WordTokenizer().tokenize(text)`: split on `/\W+/` and
discard empties, i.e. the maximal word runs. -/
def wordTokens (s : Str) : List Str :=
  (chunks s).filterMap (fun bc => if bc.1 = true then some bc.2 else none)

/-- Lowercased token runs of a code string
(`tokenizer.tokenize(code.toLowerCase())`). -/
def simTokens (s : Str) : List Str := wordTokens (s.map Char.toLower)

/-- Method 2 of `calculateSimilarity`: Jaccard similarity of the two
lowercase token sets (`Set` collapses duplicates), 0 when the union is
empty. -/
def jaccardSim (c1 c2 : Str) : ℚ :=
  let s1 := (simTokens c1).toFinset
  let s2 := (simTokens c2).toFinset
  if 0 < (s1 ∪ s2).card then ((s1 ∩ s2).card : ℚ) / ((s1 ∪ s2).card : ℚ) else 0

/-- `code.split('\n').filter(line => line.trim())`: the non-blank lines,
kept untrimmed. -/
def simLines (c : Str) : List Str := (splitNl c).filter (fun l => !(trimStr l).isEmpty)

/-- Method 3 inner loop: the number of lines of `ls1` for which some
line of `ls2` has Dice similarity above 0.8 (first hit breaks). -/
def lineMatchCount (ls1 ls2 : List Str) : Nat :=
  (ls1.filter (fun l1 => ls2.any (fun l2 => decide ((0.8 : ℚ) < compareTwoStrings l1 l2)))).length

/-- `PlagiarismDetector.calculateSimilarity`: 0 when either code string
is empty (falsy), else the weighted blend of the three signals, capped
at 1 by `Math.min`. -/
def calculateSimilarity (code1 code2 : Str) : ℚ :=
  if code1.isEmpty ∨ code2.isEmpty then 0
  else
    let stringSim := compareTwoStrings code1 code2
    let jac := jaccardSim code1 code2
    let lines1 := simLines code1
    let lines2 := simLines code2
    let totalLines := max lines1.length lines2.length
    let lineSim := if 0 < totalLines then (lineMatchCount lines1 lines2 : ℚ) / (totalLines : ℚ) else 0
    min (stringSim * 0.4 + jac * 0.3 + lineSim * 0.3) 1

/-! ## LineMatcher (plagiarismDetector.js lines 181-232) -/

structure LineMatch where
  lineA : Nat
  lineB : Nat
  code : Str
  similarity : ℚ
deriving DecidableEq, Repr

/-- `Math.round(similarity * 100 * 10) / 10`. -/
def round1 (q : ℚ) : ℚ := (jsRound (q * 100 * 10) : ℚ) / 10

/-- The inner similar-line scan: first line of `lines2` (in order, with
its index) that is longer than 10 characters and has Dice similarity
above 0.85 with `l1`; records the similarity rounded to one decimal. -/
def findSimilarLine (l1 : Str) : List Str → Nat → Option (Nat × ℚ)
  | [], _ => none
  | l2 :: rest, j =>
    if 10 < l2.length then
      if (0.85 : ℚ) < compareTwoStrings l1 l2 then some (j, round1 (compareTwoStrings l1 l2))
      else findSimilarLine l1 rest (j + 1)
    else findSimilarLine l1 rest (j + 1)

/-- The main loop of `findMatchingLines` over the lines of the first
text (index `i`, `cnt` matches collected so far): stop when the cap is
reached; exact matches (at the first matching index of `lines2`, via
the precomputed index map) score 100; otherwise lines longer than 10
characters are scanned for a similar line. -/
def fmlLoop (lines2 : List Str) (maxM : Nat) : List Str → Nat → Nat → List LineMatch
  | [], _, _ => []
  | l1 :: rest, i, cnt =>
    if maxM ≤ cnt then []
    else
      match List.findIdx? (fun l2 => l2 == l1) lines2 with
      | some j =>
        { lineA := i + 1, lineB := j + 1, code := l1, similarity := 100 } ::
          fmlLoop lines2 maxM rest (i + 1) (cnt + 1)
      | none =>
        if 10 < l1.length then
          match findSimilarLine l1 lines2 0 with
          | some jr =>
            { lineA := i + 1, lineB := jr.1 + 1, code := l1, similarity := jr.2 } ::
              fmlLoop lines2 maxM rest (i + 1) (cnt + 1)
          | none => fmlLoop lines2 maxM rest (i + 1) cnt
        else fmlLoop lines2 maxM rest (i + 1) cnt

/-- `PlagiarismDetector.findMatchingLines`: lines are trimmed and blank
lines dropped before matching. -/
def findMatchingLines (code1 code2 : Str) (maxMatches : Nat) : List LineMatch :=
  let lines1 := ((splitNl code1).map trimStr).filter (fun l => !l.isEmpty)
  let lines2 := ((splitNl code2).map trimStr).filter (fun l => !l.isEmpty)
  fmlLoop lines2 maxMatches lines1 0 0

/-! ## Detector orchestration (plagiarismDetector.js lines 237-326) -/

/-- `crypto.createHash('md5').update(code).digest('hex')`.  The md5
digest is external library code; the detector only ever compares two
digests of normalized code for equality, so it is modelled by an
injective fingerprint (the identity), which preserves exactly the
equality behaviour byte-identical inputs have under the real hash. -/
def calculateCodeHash (code : Str) : Str := code

/-- One input descriptor of `detectPlagiarism`.  `raw_code` is the text
that `NotebookParser.extractCodeFromNotebook` returns for the file
(extraction itself is file I/O plus JSON parsing and returns the empty
string on failure, so a failed extraction is the `raw_code = []`
instance). -/
structure FileData where
  student_name : Str
  student_id : Str
  file_id : Str
  raw_code : Str
  upload_order : Nat
deriving DecidableEq, Repr

structure ProcessedFile where
  student_name : Str
  student_id : Str
  file_id : Str
  raw_code : Str
  normalized_code : Str
  upload_order : Nat
  code_hash : Str
deriving DecidableEq, Repr

/-- Step 1 of `detectPlagiarism` for one file: normalize, and skip the
file (`continue`) when the normalized code trims to the empty string. -/
def processFile (nv : Bool) (f : FileData) : Option ProcessedFile :=
  let normalized := normalizeCode f.raw_code nv
  if (trimStr normalized).isEmpty then none
  else
    some { student_name := f.student_name, student_id := f.student_id,
           file_id := f.file_id, raw_code := f.raw_code,
           normalized_code := normalized, upload_order := f.upload_order,
           code_hash := calculateCodeHash normalized }

def processFiles (nv : Bool) (fs : List FileData) : List ProcessedFile :=
  fs.filterMap (processFile nv)

/-- The per-pair similarity of Step 2: exact duplicates (equal content
fingerprints) short-circuit to 1.0 without computing the weighted
metrics. -/
def rawPairSimilarity (a b : ProcessedFile) : ℚ :=
  if a.code_hash = b.code_hash then 1
  else calculateSimilarity a.normalized_code b.normalized_code

structure SimilarityRecord where
  studentA : Str
  studentA_id : Str
  fileA_id : Str
  studentB : Str
  studentB_id : Str
  fileB_id : Str
  similarity : ℚ
  matching_lines : List LineMatch
  total_matches : Nat
deriving DecidableEq, Repr

/-- `Math.round(similarity * 100 * 100) / 100`. -/
def round2 (q : ℚ) : ℚ := (jsRound (q * 100 * 100) : ℚ) / 100

/-- The result record pushed for a kept pair: score as a percentage
rounded to two decimals; matching lines only above similarity 0.7. -/
def mkRecord (a b : ProcessedFile) : SimilarityRecord :=
  let s := rawPairSimilarity a b
  let ml := if (0.7 : ℚ) < s then findMatchingLines a.normalized_code b.normalized_code 20 else []
  { studentA := a.student_name, studentA_id := a.student_id, fileA_id := a.file_id,
    studentB := b.student_name, studentB_id := b.student_id, fileB_id := b.file_id,
    similarity := round2 s, matching_lines := ml, total_matches := ml.length }

/-- The `i < j` double loop order of Step 2. -/
def allPairs {α : Type} : List α → List (α × α)
  | [] => []
  | x :: xs => (xs.map (fun y => (x, y))) ++ allPairs xs

/-- The records pushed by Step 2: pairs whose similarity meets the
threshold, in discovery order. -/
def keptResults (threshold : ℚ) (pf : List ProcessedFile) : List SimilarityRecord :=
  (allPairs pf).filterMap (fun ab =>
    if threshold ≤ rawPairSimilarity ab.1 ab.2 then some (mkRecord ab.1 ab.2) else none)

/-- `results.sort((a, b) => b.similarity - a.similarity)`:
`Array.prototype.sort` is stable (ES2019), so the result is the unique
permutation that is descending by similarity and preserves discovery
order among equal scores; modelled by a stable insertion sort. -/
def insertDescR (x : SimilarityRecord) : List SimilarityRecord → List SimilarityRecord
  | [] => [x]
  | y :: ys => if x.similarity ≤ y.similarity then y :: insertDescR x ys else x :: y :: ys

def sortResults (l : List SimilarityRecord) : List SimilarityRecord :=
  l.foldl (fun acc x => insertDescR x acc) []

/-- `PlagiarismDetector.detectPlagiarism` (with `this.threshold` and
`this.normalizeVars` as arguments): returns `[]` when fewer than two
input files or fewer than two processed files remain, else the sorted
kept pairs. -/
def detectPlagiarism (threshold : ℚ) (nv : Bool) (filesData : List FileData) : List SimilarityRecord :=
  if filesData.length < 2 then []
  else
    let pf := processFiles nv filesData
    if pf.length < 2 then []
    else sortResults (keptResults threshold pf)

/-! ## The analyze route (server.js lines 465-508) -/

/-- The analysis record the route persists and returns (`id` and
`analysis_timestamp` come from external collaborators — uuid and the
clock — and are omitted). -/
structure AnalysisResult where
  threshold : ℚ
  results : List SimilarityRecord
  total_files : Nat
  total_matches : Nat
deriving DecidableEq, Repr

/-- `app.post('/api/analyze')` over the already-fetched file list (the
database fetch is an external collaborator): fewer than 2 files is a
400 error and nothing is persisted; otherwise at most 100 files are
analyzed with `new PlagiarismDetector(threshold)` and the result record
is persisted and returned.  `Except.ok` models the persisted-and-
returned record, `Except.error` the error response with nothing
persisted.  No validation of `threshold` occurs anywhere on this
path. -/
def analyzeEndpoint (threshold : ℚ) (files : List FileData) : Except Str AnalysisResult :=
  if files.length < 2 then Except.error (S "At least 2 files are required for analysis")
  else
    let filesToAnalyze := files.take 100
    let results := detectPlagiarism threshold true filesToAnalyze
    Except.ok { threshold := threshold, results := results,
                total_files := filesToAnalyze.length, total_matches := results.length }

/-! ## Spec-side definitions (written from the specification's words, to
be compared with the definitions embedded from the source) -/

/-- Clamping to the interval `[0,1]`, as the spec words it. -/
def clamp01 (x : ℚ) : ℚ := max 0 (min x 1)

/-- Spec wording: lowercase-tokenize both texts into sets (duplicates
collapsed); score is `|intersection| / |union|`, 0 if the union is
empty. -/
def specTokenJaccard (a b : Str) : ℚ :=
  let s1 := (simTokens a).toFinset
  let s2 := (simTokens b).toFinset
  if s1 ∪ s2 = ∅ then 0 else ((s1 ∩ s2).card : ℚ) / ((s1 ∪ s2).card : ℚ)

/-- Spec wording: for each non-blank line of A, whether at least one
line of B exceeds 0.8 character-overlap similarity; coverage is
matched-line-count over the larger non-blank line count. -/
def specLineCoverage (a b : Str) : ℚ :=
  let la := simLines a
  let lb := simLines b
  let total : ℕ := max la.length lb.length
  if total = 0 then 0
  else (lineMatchCount la lb : ℚ) / (total : ℚ)

/-- Spec wording: combined score `0.4·char + 0.3·jaccard +
0.3·coverage`, clamped to `[0,1]`, reported as a percentage rounded to
two decimals. -/
def specScore (a b : Str) : ℚ :=
  let blend := 0.4 * compareTwoStrings a b + 0.3 * specTokenJaccard a b + 0.3 * specLineCoverage a b
  (jsRound (100 * clamp01 blend * 100) : ℚ) / 100

/-! ## Auxiliary predicates and tagged sorting (for the statements of
the sortedness/stability and idempotence theorems) -/

/-- `insertDescR` lifted to records tagged with their discovery index
(the comparator reads only the record). -/
def insertDescT (x : ℕ × SimilarityRecord) :
    List (ℕ × SimilarityRecord) → List (ℕ × SimilarityRecord)
  | [] => [x]
  | y :: ys => if x.2.similarity ≤ y.2.similarity then y :: insertDescT x ys else x :: y :: ys

def sortTagged (l : List (ℕ × SimilarityRecord)) : List (ℕ × SimilarityRecord) :=
  l.foldl (fun acc x => insertDescT x acc) []

/-- Descending by score with ties broken by ascending discovery
index. -/
def recLex (a b : ℕ × SimilarityRecord) : Prop :=
  b.2.similarity < a.2.similarity ∨ (a.2.similarity = b.2.similarity ∧ a.1 ≤ b.1)

/-- A nonempty all-word-character string (the shape of every
identifier token and of every generated name). -/
def wordStr (r : Str) : Prop := r ≠ [] ∧ ∀ c ∈ r, isWordChar c = true

/-- One sequential replacement step on the tagged-run view: the word
runs equal to the entry's key are replaced by its value. -/
def substOne (e : Str × Str) (L : List (Bool × Str)) : List (Bool × Str) :=
  L.map (fun bc => if bc.1 = true ∧ bc.2 = e.1 then (bc.1, e.2) else bc)

/-- Simultaneous substitution of a whole mapping on the tagged-run
view: every word run is replaced by its image under the mapping (kept
unchanged when it is not a key). -/
def substList (m : List (Str × Str)) (L : List (Bool × Str)) : List (Bool × Str) :=
  L.map (fun bc => if bc.1 = true then (bc.1, (alookup m bc.2).getD bc.2) else bc)

/-- The mapping each value induces on itself (what the second
normalization pass builds). -/
def diagMap (m : List (Str × Str)) : List (Str × Str) := m.map (fun e => (e.2, e.2))

/-- Invariant of the accumulator of `buildMapGo`: values are the
generated names in order, keys are distinct non-keywords. -/
def GoodAcc (acc : List (Str × Str)) : Prop :=
  acc.map Prod.snd = (List.range acc.length).map varName
  ∧ (acc.map Prod.fst).Nodup
  ∧ ∀ e ∈ acc, e.1 ∉ pyKeywords

/-- A well-formed tagged-run list: runs nonempty and uniform in the
tagged word-ness, adjacent tags alternating.  `chunks` produces exactly
these lists. -/
def ChunkOk (bc : Bool × Str) : Prop := bc.2 ≠ [] ∧ ∀ c ∈ bc.2, isWordChar c = bc.1

def ChunksWF (L : List (Bool × Str)) : Prop :=
  (∀ bc ∈ L, ChunkOk bc) ∧ L.Chain' (fun a b => a.1 ≠ b.1)

/-- A nonempty decimal digit string without a superfluous leading
zero. -/
def isDigitStr (l : Str) : Bool :=
  !l.isEmpty && l.all Char.isDigit && decide (l.head? = some '0' → l = ['0'])

/-- Whether a token has the exact shape `var${n}` of a generated
generic name. -/
def isCanonVar (r : Str) : Bool :=
  match r with
  | 'v' :: 'a' :: 'r' :: ds => isDigitStr ds
  | _ => false

/-- Relation between a run of the original text and the corresponding
run of the renamed text: non-word runs are kept verbatim, word runs
become nonempty all-word runs; every run on either side is nonempty. -/
def RunRel (a b : Bool × Str) : Prop :=
  (a.1 = false ∧ b = a ∧ a.2 ≠ [])
  ∨ (a.1 = true ∧ b.1 = true ∧ a.2 ≠ [] ∧ b.2 ≠ []
      ∧ (∀ c ∈ a.2, isWordChar c = true) ∧ (∀ c ∈ b.2, isWordChar c = true))

/-- Adjacent-character discipline of whitespace-normalized text: no
whitespace character touches a newline on either side. -/
def RNl (a b : Char) : Prop := ¬(isWs a = true ∧ b = '\n') ∧ ¬(a = '\n' ∧ isWs b = true)

/-- A string whose lines are nonempty and trimmed: no whitespace beside
a newline, no whitespace at either end. -/
def Tidy (y : Str) : Prop :=
  y.Chain' RNl ∧ (∀ c ∈ y.head?, isWs c = false) ∧ (∀ c ∈ y.getLast?, isWs c = false)

/-- Hypothesis of the amended idempotence claim: no string-delimiter
quote characters anywhere, and no identifier token of the generated
shape `var${n}` in the comment-stripped, whitespace-normalized code. -/
def C9hyp (s : Str) : Prop :=
  '"' ∉ s ∧ '\'' ∉ s ∧
    ∀ t ∈ identTokens (normalizeWhitespace (removeComments s)), isCanonVar t = false

/-! ## Concrete inputs used by witnesses and counterexamples -/

/-- A result record carrying only a score (for the sorting example). -/
def exRecord (sim : ℚ) : SimilarityRecord :=
  { studentA := S "A", studentA_id := S "a", fileA_id := S "fa",
    studentB := S "B", studentB_id := S "b", fileB_id := S "fb",
    similarity := sim, matching_lines := [], total_matches := 0 }

def pfX : ProcessedFile :=
  { student_name := S "X", student_id := S "x1", file_id := S "f1",
    raw_code := S "a=1", normalized_code := S "var0=1", upload_order := 0,
    code_hash := S "var0=1" }

def pfY : ProcessedFile :=
  { student_name := S "Y", student_id := S "y1", file_id := S "f2",
    raw_code := S "b=2", normalized_code := S "var0=2", upload_order := 1,
    code_hash := S "var0=2" }

def pfZ : ProcessedFile :=
  { student_name := S "Z", student_id := S "z1", file_id := S "f3",
    raw_code := S "c=1 # x", normalized_code := S "var0=1", upload_order := 2,
    code_hash := S "var0=1" }

def efile1 : FileData :=
  { student_name := S "E1", student_id := S "e1", file_id := S "fe1",
    raw_code := S "# only a comment", upload_order := 0 }

def efile2 : FileData :=
  { student_name := S "E2", student_id := S "e2", file_id := S "fe2",
    raw_code := S "   ", upload_order := 1 }

def gfile1 : FileData :=
  { student_name := S "G1", student_id := S "g1", file_id := S "fg1",
    raw_code := S "a=1", upload_order := 0 }

def gfile2 : FileData :=
  { student_name := S "G2", student_id := S "g2", file_id := S "fg2",
    raw_code := S "b=2", upload_order := 1 }

/-! # Theorems -/

/-! ## Generic facts about the scorer -/

theorem round2_one : round2 1 = 100 := by norm_num [round2, jsRound]

theorem coe_eraseFirst (x : Char × Char) (l : List (Char × Char)) :
    ((eraseFirst x l : List (Char × Char)) : Multiset (Char × Char))
      = (l : Multiset (Char × Char)).erase x := by
  induction l with
  | nil => simp [eraseFirst]
  | cons y ys ih =>
    by_cases hyx : y = x
    · subst hyx
      have he : eraseFirst y (y :: ys) = ys := by simp [eraseFirst]
      have hc : ((y :: ys : List (Char × Char)) : Multiset (Char × Char))
          = y ::ₘ (ys : Multiset (Char × Char)) := rfl
      rw [he, hc, Multiset.erase_cons_head]
    · have he : eraseFirst x (y :: ys) = y :: eraseFirst x ys := by simp [eraseFirst, hyx]
      rw [he]
      have h1 : ((y :: ys : List (Char × Char)) : Multiset (Char × Char))
          = y ::ₘ (ys : Multiset (Char × Char)) := rfl
      have h2 : ((y :: eraseFirst x ys : List (Char × Char)) : Multiset (Char × Char))
          = y ::ₘ ((eraseFirst x ys : List (Char × Char)) : Multiset (Char × Char)) := rfl
      rw [h1, h2, Multiset.erase_cons_tail _ hyx, ih]

theorem diceLoop_eq_inter (l : List (Char × Char)) :
    ∀ avail : List (Char × Char),
      diceLoop l avail =
        Multiset.card ((l : Multiset (Char × Char)) ∩ (avail : Multiset (Char × Char))) := by
  induction l with
  | nil => intro avail; simp [diceLoop]
  | cons b rest ih =>
    intro avail
    by_cases hb : b ∈ avail
    · have hm : b ∈ (avail : Multiset (Char × Char)) := by simpa using hb
      have hcons : ((b :: rest : List (Char × Char)) : Multiset (Char × Char))
          = b ::ₘ (rest : Multiset (Char × Char)) := rfl
      simp only [diceLoop, if_pos hb]
      rw [ih, hcons, Multiset.cons_inter_of_pos _ hm]
      rw [Multiset.card_cons, coe_eraseFirst]
    · have hm : b ∉ (avail : Multiset (Char × Char)) := by simpa using hb
      have hcons : ((b :: rest : List (Char × Char)) : Multiset (Char × Char))
          = b ::ₘ (rest : Multiset (Char × Char)) := rfl
      simp only [diceLoop, if_neg hb]
      rw [ih, hcons, Multiset.cons_inter_of_neg _ hm]

theorem cts_one_of_eq {s1 s2 : Str} (h : stripWs s1 = stripWs s2) :
    compareTwoStrings s1 s2 = 1 := by
  simp only [compareTwoStrings]
  rw [if_pos h]

theorem cts_zero_of_short {s1 s2 : Str} (h1 : stripWs s1 ≠ stripWs s2)
    (h2 : (stripWs s1).length < 2 ∨ (stripWs s2).length < 2) :
    compareTwoStrings s1 s2 = 0 := by
  simp only [compareTwoStrings]
  rw [if_neg h1, if_pos h2]

theorem cts_div_form {s1 s2 : Str} (h1 : stripWs s1 ≠ stripWs s2)
    (h2 : ¬((stripWs s1).length < 2 ∨ (stripWs s2).length < 2)) :
    compareTwoStrings s1 s2 =
      (2 * (diceLoop (bigrams (stripWs s2)) (bigrams (stripWs s1)) : ℚ))
        / (((stripWs s1).length + (stripWs s2).length - 2 : ℕ) : ℚ) := by
  simp only [compareTwoStrings]
  rw [if_neg h1, if_neg h2]

theorem compareTwoStrings_comm (s1 s2 : Str) :
    compareTwoStrings s1 s2 = compareTwoStrings s2 s1 := by
  by_cases h1 : stripWs s1 = stripWs s2
  · rw [cts_one_of_eq h1, cts_one_of_eq h1.symm]
  · by_cases h2 : (stripWs s1).length < 2 ∨ (stripWs s2).length < 2
    · rw [cts_zero_of_short h1 h2, cts_zero_of_short (Ne.symm h1) h2.symm]
    · rw [cts_div_form h1 h2, cts_div_form (Ne.symm h1) (fun h => h2 h.symm)]
      rw [diceLoop_eq_inter, diceLoop_eq_inter, Multiset.inter_comm,
        Nat.add_comm (stripWs s2).length (stripWs s1).length]

theorem jaccardSim_comm (c1 c2 : Str) : jaccardSim c1 c2 = jaccardSim c2 c1 := by
  simp only [jaccardSim]
  rw [Finset.union_comm, Finset.inter_comm]

theorem compareTwoStrings_nonneg (s1 s2 : Str) : 0 ≤ compareTwoStrings s1 s2 := by
  simp only [compareTwoStrings]
  split
  · norm_num
  · split
    · norm_num
    · apply div_nonneg
      · positivity
      · exact Nat.cast_nonneg _

theorem jaccardSim_nonneg (c1 c2 : Str) : 0 ≤ jaccardSim c1 c2 := by
  simp only [jaccardSim]
  split
  · apply div_nonneg <;> exact Nat.cast_nonneg _
  · exact le_refl 0

/-! ## C10 -/

/-- C10: the pairwise similarity function returns 0 whenever either
argument is the empty string; in particular the empty text scored
directly against itself (bypassing the fingerprint short-circuit)
yields 0, not 100. -/
theorem C10_empty_similarity_zero :
    (∀ c : Str, calculateSimilarity [] c = 0)
    ∧ (∀ c : Str, calculateSimilarity c [] = 0)
    ∧ calculateSimilarity [] [] = 0 := by
  refine ⟨fun c => ?_, fun c => ?_, ?_⟩ <;> simp [calculateSimilarity]

/-! ## C2 -/

/-- C2: two processed submissions with the same content fingerprint get
raw similarity 1.0 straight from the fingerprint short-circuit (no
weighted metrics involved), and the reported combined score of the pair
is exactly 100. -/
theorem C2_fingerprint_shortcircuit (a b : ProcessedFile)
    (h : a.code_hash = b.code_hash) :
    (mkRecord a b).similarity = 100 ∧ rawPairSimilarity a b = 1 := by
  have h1 : rawPairSimilarity a b = 1 := by simp [rawPairSimilarity, h]
  refine ⟨?_, h1⟩
  show round2 (rawPairSimilarity a b) = 100
  rw [h1]
  exact round2_one

theorem C2_fingerprint_shortcircuit_witness :
    (mkRecord pfX pfZ).similarity = 100 ∧ rawPairSimilarity pfX pfZ = 1 :=
  C2_fingerprint_shortcircuit pfX pfZ (by decide)

/-! ## C8 -/

theorem fmlLoop_len (ls1 : List Str) : ∀ (lines2 : List Str) (maxM i cnt : ℕ),
    (fmlLoop lines2 maxM ls1 i cnt).length ≤ maxM - cnt := by
  induction ls1 with
  | nil => intro lines2 maxM i cnt; simp [fmlLoop]
  | cons l1 rest ih =>
    intro lines2 maxM i cnt
    simp only [fmlLoop]
    split
    · simp
    · rename_i hcnt
      split
      · have := ih lines2 maxM (i + 1) (cnt + 1)
        simp only [List.length_cons]
        omega
      · split
        · split
          · have := ih lines2 maxM (i + 1) (cnt + 1)
            simp only [List.length_cons]
            omega
          · have := ih lines2 maxM (i + 1) cnt
            omega
        · have := ih lines2 maxM (i + 1) cnt
          omega

/-- C8: the line matcher never returns more than `maxMatches` entries
(20 at its call site), and a pair of texts sharing 50 identical
non-blank lines yields exactly 20 entries, not 50. -/
theorem C8_line_match_cap :
    (∀ code1 code2 maxMatches, (findMatchingLines code1 code2 maxMatches).length ≤ maxMatches)
    ∧ (findMatchingLines (joinNl (List.replicate 50 (S "x")))
        (joinNl (List.replicate 50 (S "x"))) 20).length = 20 := by
  constructor
  · intro c1 c2 m
    have h := fmlLoop_len (((splitNl c1).map trimStr).filter (fun l => !l.isEmpty))
      (((splitNl c2).map trimStr).filter (fun l => !l.isEmpty)) m 0 0
    simpa [findMatchingLines] using h
  · decide

/-! ## C3 -/

/-- C3 counterexample: the combined score is not symmetric.  For
`A = "x\nx"` and `B = "x\ny"` the directional line-coverage counts
differ (both lines of A match a line of B, but only one line of B
matches a line of A), giving 0.45 one way and 0.30 the other. -/
theorem C3_not_symmetric_counterexample :
    calculateSimilarity (S "x\nx") (S "x\ny") = 9 / 20
    ∧ calculateSimilarity (S "x\ny") (S "x\nx") = 3 / 10 := by
  have hxx : compareTwoStrings (S "x") (S "x") = 1 := cts_one_of_eq (by decide)
  have hxy : compareTwoStrings (S "x") (S "y") = 0 :=
    cts_zero_of_short (by decide) (by decide)
  have hyx : compareTwoStrings (S "y") (S "x") = 0 :=
    cts_zero_of_short (by decide) (by decide)
  have ha1 : decide ((0.8 : ℚ) < compareTwoStrings (S "x") (S "x")) = true := by
    rw [hxx]; exact decide_eq_true (by norm_num)
  have ha2 : decide ((0.8 : ℚ) < compareTwoStrings (S "x") (S "y")) = false := by
    rw [hxy]; exact decide_eq_false (by norm_num)
  have ha3 : decide ((0.8 : ℚ) < compareTwoStrings (S "y") (S "x")) = false := by
    rw [hyx]; exact decide_eq_false (by norm_num)
  have hsl1 : simLines (S "x\nx") = [S "x", S "x"] := by decide
  have hsl2 : simLines (S "x\ny") = [S "x", S "y"] := by decide
  have hc1 : lineMatchCount [S "x", S "x"] [S "x", S "y"] = 2 := by
    simp [lineMatchCount, ha1, ha2]
  have hc2 : lineMatchCount [S "x", S "y"] [S "x", S "x"] = 1 := by
    simp [lineMatchCount, ha1, ha3]
  have hd0 : diceLoop (bigrams (stripWs (S "x\ny"))) (bigrams (stripWs (S "x\nx"))) = 0 := by
    decide
  have hd : compareTwoStrings (S "x\nx") (S "x\ny") = 0 := by
    rw [cts_div_form (by decide) (by decide), hd0]
    norm_num
  have hd2 : compareTwoStrings (S "x\ny") (S "x\nx") = 0 := by
    rw [compareTwoStrings_comm]; exact hd
  have hiu : ((simTokens (S "x\nx")).toFinset ∩ (simTokens (S "x\ny")).toFinset).card = 1 := by
    decide
  have huu : ((simTokens (S "x\nx")).toFinset ∪ (simTokens (S "x\ny")).toFinset).card = 2 := by
    decide
  have hj : jaccardSim (S "x\nx") (S "x\ny") = 1 / 2 := by
    simp only [jaccardSim, hiu, huu]
    norm_num
  have hj2 : jaccardSim (S "x\ny") (S "x\nx") = 1 / 2 := by
    rw [jaccardSim_comm]; exact hj
  constructor
  · simp only [calculateSimilarity, hsl1, hsl2, hd, hj, hc1]
    rw [if_neg (by decide : ¬((S "x\nx").isEmpty = true ∨ (S "x\ny").isEmpty = true))]
    norm_num [min_def]
  · simp only [calculateSimilarity, hsl1, hsl2, hd2, hj2, hc2]
    rw [if_neg (by decide : ¬((S "x\ny").isEmpty = true ∨ (S "x\nx").isEmpty = true))]
    norm_num [min_def]

/-- C3 (amended): the character-Dice and token-Jaccard components are
symmetric for every pair, and the combined score is symmetric whenever
the two directional line-coverage counts coincide; it is not symmetric
in general (see the counterexample). -/
theorem C3_components_symmetric (a b : Str) :
    compareTwoStrings a b = compareTwoStrings b a
    ∧ jaccardSim a b = jaccardSim b a
    ∧ (lineMatchCount (simLines a) (simLines b) = lineMatchCount (simLines b) (simLines a) →
        calculateSimilarity a b = calculateSimilarity b a) := by
  refine ⟨compareTwoStrings_comm a b, jaccardSim_comm a b, fun h => ?_⟩
  simp only [calculateSimilarity]
  by_cases he : a.isEmpty = true ∨ b.isEmpty = true
  · rw [if_pos he, if_pos (Or.symm he)]
  · rw [if_neg he, if_neg (fun h2 => he (Or.symm h2))]
    rw [compareTwoStrings_comm, jaccardSim_comm, h,
      Nat.max_comm (simLines a).length (simLines b).length]

theorem C3_components_symmetric_witness :
    lineMatchCount (simLines (S "ab")) (simLines (S "pq"))
        = lineMatchCount (simLines (S "pq")) (simLines (S "ab"))
    ∧ calculateSimilarity (S "ab") (S "pq") = calculateSimilarity (S "pq") (S "ab") := by
  have hab : compareTwoStrings (S "ab") (S "pq") = 0 := by
    rw [cts_div_form (by decide) (by decide)]
    rw [show diceLoop (bigrams (stripWs (S "pq"))) (bigrams (stripWs (S "ab"))) = 0 from by decide]
    norm_num
  have hba : compareTwoStrings (S "pq") (S "ab") = 0 := by
    rw [compareTwoStrings_comm]; exact hab
  have ha1 : decide ((0.8 : ℚ) < compareTwoStrings (S "ab") (S "pq")) = false := by
    rw [hab]; exact decide_eq_false (by norm_num)
  have ha2 : decide ((0.8 : ℚ) < compareTwoStrings (S "pq") (S "ab")) = false := by
    rw [hba]; exact decide_eq_false (by norm_num)
  have h : lineMatchCount (simLines (S "ab")) (simLines (S "pq"))
      = lineMatchCount (simLines (S "pq")) (simLines (S "ab")) := by
    rw [show simLines (S "ab") = [S "ab"] from by decide,
      show simLines (S "pq") = [S "pq"] from by decide]
    simp [lineMatchCount, ha1, ha2]
  exact ⟨h, (C3_components_symmetric (S "ab") (S "pq")).2.2 h⟩

/-! ## C1 -/

theorem specTokenJaccard_eq (c1 c2 : Str) : specTokenJaccard c1 c2 = jaccardSim c1 c2 := by
  simp only [specTokenJaccard, jaccardSim]
  by_cases h : (simTokens c1).toFinset ∪ (simTokens c2).toFinset = ∅
  · simp [h]
  · rw [if_neg h, if_pos (Finset.card_pos.mpr (Finset.nonempty_iff_ne_empty.mpr h))]

theorem specLineCoverage_eq (a b : Str) :
    specLineCoverage a b =
      (if 0 < max (simLines a).length (simLines b).length
        then (lineMatchCount (simLines a) (simLines b) : ℚ)
          / ((max (simLines a).length (simLines b).length : ℕ) : ℚ)
        else 0) := by
  simp only [specLineCoverage]
  by_cases h : max (simLines a).length (simLines b).length = 0
  · rw [if_pos h, if_neg (by omega)]
  · rw [if_neg h, if_pos (Nat.pos_of_ne_zero h)]

theorem min_blend_eq_clamp (x y z : ℚ) (hx : 0 ≤ x) (hy : 0 ≤ y) (hz : 0 ≤ z) :
    min (x * 0.4 + y * 0.3 + z * 0.3) 1 = clamp01 (0.4 * x + 0.3 * y + 0.3 * z) := by
  unfold clamp01
  have h1 : (0.4 : ℚ) * x + 0.3 * y + 0.3 * z = x * 0.4 + y * 0.3 + z * 0.3 := by ring
  rw [h1, max_eq_right]
  exact le_min (by nlinarith) (by norm_num)

theorem calcSim_eq_clamp (a b : Str) (hea : a.isEmpty = false) (heb : b.isEmpty = false) :
    calculateSimilarity a b
      = clamp01 (0.4 * compareTwoStrings a b + 0.3 * specTokenJaccard a b
          + 0.3 * specLineCoverage a b) := by
  simp only [calculateSimilarity, hea, heb]
  rw [if_neg (by simp)]
  rw [specTokenJaccard_eq, specLineCoverage_eq]
  exact min_blend_eq_clamp _ _ _ (compareTwoStrings_nonneg a b) (jaccardSim_nonneg a b)
    (by
      split
      · exact div_nonneg (Nat.cast_nonneg _) (Nat.cast_nonneg _)
      · exact le_refl 0)

theorem round2_comm_form (x : ℚ) : round2 x = ((jsRound (100 * x * 100) : ℤ) : ℚ) / 100 := by
  have h : x * 100 * 100 = 100 * x * 100 := by ring
  rw [round2, h]

/-- C1: for a pair of non-empty normalized texts with different
fingerprints, the reported similarity is exactly the spec's weighted
blend `0.4·char + 0.3·jaccard + 0.3·coverage`, clamped to `[0,1]` and
reported as a percentage rounded to two decimals, with token-Jaccard
`|∩|/|∪|` over the lowercase token sets (0 on an empty union). -/
theorem C1_weighted_blend (a b : ProcessedFile)
    (ha : a.normalized_code ≠ []) (hb : b.normalized_code ≠ [])
    (hh : a.code_hash ≠ b.code_hash) :
    (mkRecord a b).similarity = specScore a.normalized_code b.normalized_code := by
  have hraw : rawPairSimilarity a b = calculateSimilarity a.normalized_code b.normalized_code := by
    simp [rawPairSimilarity, hh]
  have hea : a.normalized_code.isEmpty = false := by
    cases hx : a.normalized_code with
    | nil => exact absurd hx ha
    | cons c cs => rfl
  have heb : b.normalized_code.isEmpty = false := by
    cases hx : b.normalized_code with
    | nil => exact absurd hx hb
    | cons c cs => rfl
  show round2 (rawPairSimilarity a b) = specScore a.normalized_code b.normalized_code
  rw [hraw, calcSim_eq_clamp _ _ hea heb]
  simp only [specScore]
  exact round2_comm_form _

theorem C1_weighted_blend_witness :
    (mkRecord pfX pfY).similarity = specScore pfX.normalized_code pfY.normalized_code :=
  C1_weighted_blend pfX pfY (by decide) (by decide) (by decide)

/-! ## C6 -/

theorem insertDescR_perm (x : SimilarityRecord) (l : List SimilarityRecord) :
    (insertDescR x l).Perm (x :: l) := by
  induction l with
  | nil => simp [insertDescR]
  | cons y ys ih =>
    simp only [insertDescR]
    split
    · exact (ih.cons y).trans (List.Perm.swap x y ys)
    · exact List.Perm.refl _

theorem sortFold_perm (l : List SimilarityRecord) :
    ∀ acc : List SimilarityRecord,
      (l.foldl (fun acc x => insertDescR x acc) acc).Perm (l ++ acc) := by
  induction l with
  | nil => intro acc; simp
  | cons x xs ih =>
    intro acc
    simp only [List.foldl_cons, List.cons_append]
    refine (ih (insertDescR x acc)).trans ?_
    exact (List.Perm.append_left xs (insertDescR_perm x acc)).trans List.perm_middle

theorem sortResults_perm (l : List SimilarityRecord) : (sortResults l).Perm l := by
  have h := sortFold_perm l []
  simpa [sortResults] using h

theorem keptResults_mono_mem {t1 t2 : ℚ} (h : t1 ≤ t2) (pf : List ProcessedFile)
    {r : SimilarityRecord} (hr : r ∈ keptResults t2 pf) : r ∈ keptResults t1 pf := by
  simp only [keptResults, List.mem_filterMap] at hr ⊢
  obtain ⟨ab, hab, hcond⟩ := hr
  refine ⟨ab, hab, ?_⟩
  by_cases hc : t2 ≤ rawPairSimilarity ab.1 ab.2
  · rw [if_pos (le_trans h hc)]
    rwa [if_pos hc] at hcond
  · rw [if_neg hc] at hcond
    exact absurd hcond (by simp)

theorem filterMapIf_len_mono (l : List (ProcessedFile × ProcessedFile)) (t1 t2 : ℚ) (h : t1 ≤ t2) :
    (l.filterMap (fun ab =>
        if t2 ≤ rawPairSimilarity ab.1 ab.2 then some (mkRecord ab.1 ab.2) else none)).length
      ≤ (l.filterMap (fun ab =>
        if t1 ≤ rawPairSimilarity ab.1 ab.2 then some (mkRecord ab.1 ab.2) else none)).length := by
  induction l with
  | nil => simp
  | cons ab rest ih =>
    simp only [List.filterMap_cons]
    by_cases hc : t2 ≤ rawPairSimilarity ab.1 ab.2
    · rw [if_pos hc, if_pos (le_trans h hc)]
      simpa using ih
    · rw [if_neg hc]
      by_cases hc1 : t1 ≤ rawPairSimilarity ab.1 ab.2
      · rw [if_pos hc1]
        exact le_trans ih (by simp)
      · rw [if_neg hc1]
        exact ih

/-- C6: for a fixed batch, raising the threshold never adds results:
every record returned at threshold `t2` is returned at any `t1 ≤ t2`,
and the number of results at `t2` is at most that at `t1`. -/
theorem C6_threshold_monotone (t1 t2 : ℚ) (nv : Bool) (fs : List FileData) (h : t1 ≤ t2) :
    (∀ r ∈ detectPlagiarism t2 nv fs, r ∈ detectPlagiarism t1 nv fs)
    ∧ (detectPlagiarism t2 nv fs).length ≤ (detectPlagiarism t1 nv fs).length := by
  simp only [detectPlagiarism]
  by_cases h1 : fs.length < 2
  · simp [h1]
  · rw [if_neg h1, if_neg h1]
    by_cases h2 : (processFiles nv fs).length < 2
    · simp [h2]
    · rw [if_neg h2, if_neg h2]
      constructor
      · intro r hr
        rw [(sortResults_perm _).mem_iff] at hr ⊢
        exact keptResults_mono_mem h _ hr
      · rw [(sortResults_perm _).length_eq, (sortResults_perm _).length_eq]
        exact filterMapIf_len_mono _ t1 t2 h

theorem C6_threshold_monotone_witness :
    (∀ r ∈ detectPlagiarism (1 / 2) true [gfile1, gfile2],
        r ∈ detectPlagiarism (3 / 10) true [gfile1, gfile2])
    ∧ (detectPlagiarism (1 / 2) true [gfile1, gfile2]).length
        ≤ (detectPlagiarism (3 / 10) true [gfile1, gfile2]).length :=
  C6_threshold_monotone (3 / 10) (1 / 2) true [gfile1, gfile2] (by norm_num)

/-! ## C7 -/

theorem mem_insertDescR {a x : SimilarityRecord} {l : List SimilarityRecord} :
    a ∈ insertDescR x l ↔ a = x ∨ a ∈ l := by
  induction l with
  | nil => simp [insertDescR]
  | cons y ys ih =>
    simp only [insertDescR]
    split
    · rw [List.mem_cons, ih, List.mem_cons]
      tauto
    · rw [List.mem_cons, List.mem_cons]

theorem sorted_insertDescR {x : SimilarityRecord} {l : List SimilarityRecord}
    (h : l.Sorted (fun a b => b.similarity ≤ a.similarity)) :
    (insertDescR x l).Sorted (fun a b => b.similarity ≤ a.similarity) := by
  induction l with
  | nil => simp [insertDescR]
  | cons y ys ih =>
    rw [List.sorted_cons] at h
    simp only [insertDescR]
    split
    · rename_i hc
      rw [List.sorted_cons]
      refine ⟨?_, ih h.2⟩
      intro b hb
      rcases mem_insertDescR.mp hb with hbx | hby
      · exact hbx ▸ hc
      · exact h.1 b hby
    · rename_i hc
      rw [List.sorted_cons]
      refine ⟨?_, List.sorted_cons.mpr h⟩
      intro b hb
      rcases List.mem_cons.mp hb with hby | hbys
      · exact hby ▸ le_of_not_le hc
      · exact le_trans (h.1 b hbys) (le_of_not_le hc)

theorem sortFold_sorted (l : List SimilarityRecord) :
    ∀ acc : List SimilarityRecord, acc.Sorted (fun a b => b.similarity ≤ a.similarity) →
      (l.foldl (fun acc x => insertDescR x acc) acc).Sorted
        (fun a b => b.similarity ≤ a.similarity) := by
  induction l with
  | nil => intro acc h; simpa using h
  | cons x xs ih =>
    intro acc h
    simp only [List.foldl_cons]
    exact ih (insertDescR x acc) (sorted_insertDescR h)

theorem sortResults_sorted (l : List SimilarityRecord) :
    (sortResults l).Sorted (fun a b => b.similarity ≤ a.similarity) :=
  sortFold_sorted l [] (by simp)

theorem mem_insertDescT {a x : ℕ × SimilarityRecord} {l : List (ℕ × SimilarityRecord)} :
    a ∈ insertDescT x l ↔ a = x ∨ a ∈ l := by
  induction l with
  | nil => simp [insertDescT]
  | cons y ys ih =>
    simp only [insertDescT]
    split
    · rw [List.mem_cons, ih, List.mem_cons]
      tauto
    · rw [List.mem_cons, List.mem_cons]

theorem map_snd_insertDescT (x : ℕ × SimilarityRecord) (l : List (ℕ × SimilarityRecord)) :
    (insertDescT x l).map Prod.snd = insertDescR x.2 (l.map Prod.snd) := by
  induction l with
  | nil => simp [insertDescT, insertDescR]
  | cons y ys ih =>
    simp only [insertDescT, insertDescR, List.map_cons]
    split
    · simp [ih]
    · simp

theorem map_snd_sortFold (l : List (ℕ × SimilarityRecord)) :
    ∀ acc : List (ℕ × SimilarityRecord),
      (l.foldl (fun acc x => insertDescT x acc) acc).map Prod.snd
        = (l.map Prod.snd).foldl (fun acc x => insertDescR x acc) (acc.map Prod.snd) := by
  induction l with
  | nil => intro acc; simp
  | cons x xs ih =>
    intro acc
    simp only [List.foldl_cons, List.map_cons]
    rw [ih, map_snd_insertDescT]

theorem recLex_le {a b : ℕ × SimilarityRecord} (h : recLex a b) :
    b.2.similarity ≤ a.2.similarity := by
  rcases h with h | ⟨h, _⟩
  · exact le_of_lt h
  · exact le_of_eq h.symm

theorem sorted_insertDescT {x : ℕ × SimilarityRecord} {l : List (ℕ × SimilarityRecord)}
    (h : l.Sorted recLex) (hidx : ∀ y ∈ l, y.1 < x.1) :
    (insertDescT x l).Sorted recLex := by
  induction l with
  | nil => simp [insertDescT]
  | cons y ys ih =>
    rw [List.sorted_cons] at h
    simp only [insertDescT]
    split
    · rename_i hc
      rw [List.sorted_cons]
      refine ⟨?_, ih h.2 (fun z hz => hidx z (List.mem_cons_of_mem y hz))⟩
      intro b hb
      rcases mem_insertDescT.mp hb with hbx | hby
      · subst hbx
        rcases lt_or_eq_of_le hc with hlt | heq
        · exact Or.inl hlt
        · exact Or.inr ⟨heq.symm, le_of_lt (hidx y (List.mem_cons_self y ys))⟩
      · exact h.1 b hby
    · rename_i hc
      rw [List.sorted_cons]
      refine ⟨?_, List.sorted_cons.mpr h⟩
      intro b hb
      rcases List.mem_cons.mp hb with hby | hbys
      · exact Or.inl (hby ▸ lt_of_not_le hc)
      · exact Or.inl (lt_of_le_of_lt (recLex_le (h.1 b hbys)) (lt_of_not_le hc))

theorem sortFold_sorted_tagged (l : List (ℕ × SimilarityRecord)) :
    ∀ acc : List (ℕ × SimilarityRecord), acc.Sorted recLex →
      (∀ y ∈ acc, ∀ x ∈ l, y.1 < x.1) →
      l.Pairwise (fun a b => a.1 < b.1) →
      (l.foldl (fun acc x => insertDescT x acc) acc).Sorted recLex := by
  induction l with
  | nil => intro acc h _ _; simpa using h
  | cons x xs ih =>
    intro acc hacc hcross hpair
    rw [List.pairwise_cons] at hpair
    simp only [List.foldl_cons]
    refine ih (insertDescT x acc) ?_ ?_ hpair.2
    · exact sorted_insertDescT hacc
        (fun y hy => hcross y hy x (List.mem_cons_self x xs))
    · intro y hy z hz
      rcases mem_insertDescT.mp hy with hyx | hya
      · exact hyx ▸ hpair.1 z hz
      · exact hcross y hya z (List.mem_cons_of_mem x hz)

theorem fst_ge_enumFrom {α : Type} (l : List α) :
    ∀ (n : ℕ) (y : ℕ × α), y ∈ List.enumFrom n l → n ≤ y.1 := by
  induction l with
  | nil => intro n y hy; simp [List.enumFrom] at hy
  | cons x xs ih =>
    intro n y hy
    rw [List.enumFrom_cons] at hy
    rcases List.mem_cons.mp hy with h | h
    · subst h; exact le_refl n
    · exact le_trans (Nat.le_succ n) (ih (n + 1) y h)

theorem pairwise_enumFrom {α : Type} (l : List α) :
    ∀ n : ℕ, (List.enumFrom n l).Pairwise (fun a b => a.1 < b.1) := by
  induction l with
  | nil => intro n; simp [List.enumFrom]
  | cons x xs ih =>
    intro n
    rw [List.enumFrom_cons, List.pairwise_cons]
    exact ⟨fun y hy => lt_of_lt_of_le (Nat.lt_succ_self n) (fst_ge_enumFrom xs (n + 1) y hy),
      ih (n + 1)⟩

theorem sortTagged_sorted (l : List SimilarityRecord) :
    (sortTagged l.enum).Sorted recLex :=
  sortFold_sorted_tagged l.enum [] (by simp) (by simp) (pairwise_enumFrom l 0)

theorem map_snd_sortTagged (l : List SimilarityRecord) :
    (sortTagged l.enum).map Prod.snd = sortResults l := by
  have h := map_snd_sortFold l.enum []
  simpa [sortTagged, sortResults, List.enum_map_snd] using h

/-- C7: the returned results are always sorted by descending reported
score; moreover the sort is the unique stable one: tagging the kept
records with their discovery index, the sorted tagged list is ordered
by descending score with ties broken by ascending discovery index, and
forgetting the tags gives exactly the code's sort.  The spec's example
holds: records scoring 90, 70, 95 in discovery order come out as
95, 90, 70. -/
theorem C7_results_sorted_stable :
    (∀ threshold nv fs, (detectPlagiarism threshold nv fs).Sorted
        (fun a b => b.similarity ≤ a.similarity))
    ∧ (∀ l : List SimilarityRecord,
        (sortTagged l.enum).map Prod.snd = sortResults l
        ∧ (sortTagged l.enum).Sorted recLex)
    ∧ sortResults [exRecord 90, exRecord 70, exRecord 95]
        = [exRecord 95, exRecord 90, exRecord 70] := by
  refine ⟨?_, fun l => ⟨map_snd_sortTagged l, sortTagged_sorted l⟩, by decide⟩
  intro threshold nv fs
  simp only [detectPlagiarism]
  by_cases h1 : fs.length < 2
  · simp [h1]
  · rw [if_neg h1]
    by_cases h2 : (processFiles nv fs).length < 2
    · simp [h2]
    · rw [if_neg h2]
      exact sortResults_sorted _

/-! ## C4 -/

/-- C4 counterexample: a batch of 2 files that both normalize to empty
text (fewer than 2 usable submissions after extraction) does NOT fail:
the endpoint persists and returns a run (here shown by the route
returning ok, which models "persisted and responded 200"). -/
theorem C4_no_failure_counterexample :
    (processFiles true [efile1, efile2]).length = 0
    ∧ (analyzeEndpoint (1 / 2) [efile1, efile2]).isOk = true := by
  constructor
  · decide
  · simp only [analyzeEndpoint]
    rfl

/-- C4 (amended): only the batch-size precondition is enforced — fewer
than 2 input files is an explicit error with nothing persisted; but
when at least 2 files are present and fewer than 2 remain usable after
extraction/normalization, no error is raised: a run with an empty
result list is produced, persisted and returned. -/
theorem C4_insufficient_input_behavior :
    (∀ (t : ℚ) (fs : List FileData), fs.length < 2 →
        analyzeEndpoint t fs = Except.error (S "At least 2 files are required for analysis"))
    ∧ (∀ (t : ℚ) (fs : List FileData), 2 ≤ fs.length →
        (processFiles true (fs.take 100)).length < 2 →
        analyzeEndpoint t fs = Except.ok
          { threshold := t, results := [], total_files := (fs.take 100).length,
            total_matches := 0 }) := by
  constructor
  · intro t fs h
    simp [analyzeEndpoint, h]
  · intro t fs h2 hp
    have hlen : ¬fs.length < 2 := by omega
    have hdetect : detectPlagiarism t true (fs.take 100) = [] := by
      simp only [detectPlagiarism]
      by_cases htk : (fs.take 100).length < 2
      · rw [if_pos htk]
      · rw [if_neg htk, if_pos hp]
    simp only [analyzeEndpoint, if_neg hlen, hdetect]
    simp

theorem C4_insufficient_input_behavior_witness :
    analyzeEndpoint (1 / 2) [efile1, efile2] = Except.ok
      { threshold := 1 / 2, results := [], total_files := 2, total_matches := 0 } := by
  have h := C4_insufficient_input_behavior.2 (1 / 2) [efile1, efile2] (by decide) (by decide)
  simpa using h

/-! ## C5 -/

/-- C5 counterexample: threshold 2 is outside (0,1], yet the analyze
route raises no ConfigurationError — it runs the analysis and returns
(and persists) a result. -/
theorem C5_no_validation_counterexample :
    ¬((0 : ℚ) < 2 ∧ (2 : ℚ) ≤ 1) ∧ (analyzeEndpoint 2 [gfile1, gfile2]).isOk = true := by
  constructor
  · decide
  · simp only [analyzeEndpoint]
    rfl

/-- C5 (amended): the analyze route performs no threshold validation at
all: for every threshold value, inside or outside (0,1], a batch of at
least 2 files is analyzed, and a run recording that threshold verbatim
is persisted and returned; no ConfigurationError path exists. -/
theorem C5_threshold_never_validated (t : ℚ) (fs : List FileData) (h : 2 ≤ fs.length) :
    analyzeEndpoint t fs = Except.ok
      { threshold := t, results := detectPlagiarism t true (fs.take 100),
        total_files := (fs.take 100).length,
        total_matches := (detectPlagiarism t true (fs.take 100)).length } := by
  have hlen : ¬fs.length < 2 := by omega
  simp [analyzeEndpoint, hlen]

theorem C5_threshold_never_validated_witness :
    analyzeEndpoint 2 [gfile1, gfile2] = Except.ok
      { threshold := 2, results := detectPlagiarism 2 true ([gfile1, gfile2].take 100),
        total_files := ([gfile1, gfile2].take 100).length,
        total_matches := (detectPlagiarism 2 true ([gfile1, gfile2].take 100)).length } :=
  C5_threshold_never_validated 2 [gfile1, gfile2] (by decide)

/-! ## C9: tagged-run (chunk) infrastructure -/

theorem unchunk_cons (b : Bool) (r : Str) (L : List (Bool × Str)) :
    unchunk ((b, r) :: L) = r ++ unchunk L := by
  simp [unchunk]

theorem chunks_cons_eq (c : Char) (cs : Str) :
    chunks (c :: cs) =
      match chunks cs with
      | [] => [(isWordChar c, [c])]
      | (b, run) :: rest =>
        if isWordChar c = b then (b, c :: run) :: rest
        else (isWordChar c, [c]) :: (b, run) :: rest := rfl

theorem chunks_cons_of_nil {cs : Str} (c : Char) (h : chunks cs = []) :
    chunks (c :: cs) = [(isWordChar c, [c])] := by
  rw [chunks_cons_eq, h]

theorem chunks_cons_of_same {cs : Str} {b : Bool} {run : Str} {rest : List (Bool × Str)}
    (c : Char) (h : chunks cs = (b, run) :: rest) (hw : isWordChar c = b) :
    chunks (c :: cs) = (b, c :: run) :: rest := by
  rw [chunks_cons_eq, h]
  simp only [hw, if_true]

theorem chunks_cons_of_diff {cs : Str} {b : Bool} {run : Str} {rest : List (Bool × Str)}
    (c : Char) (h : chunks cs = (b, run) :: rest) (hw : isWordChar c ≠ b) :
    chunks (c :: cs) = (isWordChar c, [c]) :: (b, run) :: rest := by
  rw [chunks_cons_eq, h]
  simp only [hw, if_false]

theorem unchunk_chunks (s : Str) : unchunk (chunks s) = s := by
  induction s with
  | nil => rfl
  | cons c cs ih =>
    cases hcs : chunks cs with
    | nil =>
      have hcs' : cs = [] := by
        rw [hcs] at ih
        simpa [unchunk] using ih.symm
      rw [chunks_cons_of_nil c hcs, hcs']
      simp [unchunk]
    | cons p rest =>
      obtain ⟨b, run⟩ := p
      rw [hcs] at ih
      by_cases hw : isWordChar c = b
      · rw [chunks_cons_of_same c hcs hw, unchunk_cons, List.cons_append, ← unchunk_cons, ih]
      · rw [chunks_cons_of_diff c hcs hw, unchunk_cons, ih]
        rfl

theorem chunks_cons_shape (c : Char) (cs : Str) :
    ∃ r rest, chunks (c :: cs) = (isWordChar c, c :: r) :: rest := by
  cases hcs : chunks cs with
  | nil =>
    exact ⟨[], [], chunks_cons_of_nil c hcs⟩
  | cons p rest =>
    obtain ⟨b, run⟩ := p
    by_cases hw : isWordChar c = b
    · refine ⟨run, rest, ?_⟩
      rw [chunks_cons_of_same c hcs hw, hw]
    · exact ⟨[], (b, run) :: rest, chunks_cons_of_diff c hcs hw⟩

theorem ChunksWF_tail {bc : Bool × Str} {L : List (Bool × Str)}
    (h : ChunksWF (bc :: L)) : ChunksWF L :=
  ⟨fun x hx => h.1 x (List.mem_cons_of_mem _ hx), (List.chain'_cons'.mp h.2).2⟩

theorem WF_chunks (s : Str) : ChunksWF (chunks s) := by
  induction s with
  | nil => exact ⟨by intro bc hbc; simp [chunks] at hbc, by simp [chunks]⟩
  | cons c cs ih =>
    cases hcs : chunks cs with
    | nil =>
      rw [chunks_cons_of_nil c hcs]
      refine ⟨?_, by simp⟩
      intro bc hbc
      rw [List.mem_singleton] at hbc
      subst hbc
      exact ⟨by simp, by simp⟩
    | cons p rest =>
      obtain ⟨b, run⟩ := p
      rw [hcs] at ih
      obtain ⟨hok, hch⟩ := ih
      by_cases hw : isWordChar c = b
      · rw [chunks_cons_of_same c hcs hw]
        refine ⟨?_, ?_⟩
        · intro bc hbc
          rcases List.mem_cons.mp hbc with h | h
          · subst h
            have h1 := hok (b, run) (List.mem_cons_self _ _)
            refine ⟨by simp, ?_⟩
            intro x hx
            rcases List.mem_cons.mp hx with hx | hx
            · subst hx; exact hw
            · exact h1.2 x hx
          · exact hok bc (List.mem_cons_of_mem _ h)
        · rw [List.chain'_cons'] at hch ⊢
          exact ⟨hch.1, hch.2⟩
      · rw [chunks_cons_of_diff c hcs hw]
        refine ⟨?_, ?_⟩
        · intro bc hbc
          rcases List.mem_cons.mp hbc with h | h
          · subst h
            exact ⟨by simp, by simp⟩
          · exact hok bc h
        · rw [List.chain'_cons']
          exact ⟨fun y hy => by simp at hy; rw [← hy]; exact hw, hch⟩

theorem head?_unchunk_cons (b2 : Bool) (r2 : Str) (L : List (Bool × Str)) (h : r2 ≠ []) :
    (unchunk ((b2, r2) :: L)).head? = r2.head? := by
  rw [unchunk_cons, List.head?_append]
  cases r2 with
  | nil => exact absurd rfl h
  | cons x xs => simp

theorem chunks_word_front : ∀ (r : Str) (b : Bool) (t : Str), r ≠ [] →
    (∀ c ∈ r, isWordChar c = b) → (∀ d ∈ t.head?, isWordChar d ≠ b) →
    chunks (r ++ t) = (b, r) :: chunks t := by
  intro r
  induction r with
  | nil => intro b t h; exact absurd rfl h
  | cons c r' ih =>
    intro b t _ hall hhead
    have hwc : isWordChar c = b := hall c (List.mem_cons_self _ _)
    by_cases hr' : r' = []
    · subst hr'
      cases ht : t with
      | nil =>
        subst ht
        rw [show ([c] ++ ([] : Str)) = [c] from rfl]
        rw [chunks_cons_of_nil c (rfl : chunks ([] : Str) = []), hwc]
        rfl
      | cons d ts =>
        subst ht
        have hd : isWordChar d ≠ b := hhead d (by simp)
        obtain ⟨r2, rest2, hshape⟩ := chunks_cons_shape d ts
        rw [show ([c] ++ (d :: ts)) = c :: d :: ts from rfl]
        rw [chunks_cons_of_diff c hshape (by rw [hwc]; exact fun hh => hd hh.symm)]
        rw [hwc, hshape]
    · have hih := ih b t hr' (fun x hx => hall x (List.mem_cons_of_mem _ hx)) hhead
      rw [show ((c :: r') ++ t) = c :: (r' ++ t) from rfl]
      rw [chunks_cons_of_same c hih hwc]

theorem chunks_unchunk : ∀ L : List (Bool × Str), ChunksWF L → chunks (unchunk L) = L := by
  intro L
  induction L with
  | nil => intro _; rfl
  | cons bc L' ih =>
    intro h
    obtain ⟨b, r⟩ := bc
    have hok := h.1 (b, r) (List.mem_cons_self _ _)
    have htail := ChunksWF_tail h
    rw [unchunk_cons]
    rw [chunks_word_front r b (unchunk L') hok.1 hok.2 ?_, ih htail]
    intro d hd
    cases L' with
    | nil => simp [unchunk] at hd
    | cons bc2 L'' =>
      obtain ⟨b2, r2⟩ := bc2
      have hok2 := htail.1 (b2, r2) (List.mem_cons_self _ _)
      rw [head?_unchunk_cons b2 r2 L'' hok2.1] at hd
      have hd2 : d ∈ r2 := by
        cases r2 with
        | nil => simp at hd
        | cons x xs => simp at hd; subst hd; exact List.mem_cons_self _ _
      have hflag : isWordChar d = b2 := hok2.2 d hd2
      have hneq : b ≠ b2 := by
        have := (List.chain'_cons'.mp h.2).1 (b2, r2) (by simp)
        exact this
      rw [hflag]
      exact fun hh => hneq hh.symm

/-! ## C9: properties of the generated names -/

theorem digitChar_isDigit {d : ℕ} (h : d < 10) : (digitChar d).isDigit = true := by
  interval_cases d <;> decide

theorem digitChar_toNat {d : ℕ} (h : d < 10) : (digitChar d).toNat - 48 = d := by
  interval_cases d <;> decide

theorem digitChar_eq_zero {d : ℕ} (h : d < 10) : digitChar d = '0' ↔ d = 0 := by
  interval_cases d <;> simp <;> decide

theorem natDigitsGo_spec : ∀ (fuel n : ℕ) (acc : Str), n < 10 ^ (fuel + 1) →
    ∃ ds : Str, natDigitsGo (fuel + 1) n acc = ds ++ acc ∧ ds ≠ []
      ∧ (∀ c ∈ ds, c.isDigit = true)
      ∧ digitsVal ds = n
      ∧ (ds.head? = some '0' → ds = ['0'] ∧ n = 0) := by
  intro fuel
  induction fuel with
  | zero =>
    intro n acc hn
    rw [pow_one] at hn
    refine ⟨[digitChar n], ?_, by simp, ?_, ?_, ?_⟩
    · simp [natDigitsGo, hn]
    · intro c hc
      rw [List.mem_singleton] at hc
      subst hc
      exact digitChar_isDigit hn
    · simp [digitsVal, digitChar_toNat hn]
    · intro hh
      simp only [List.head?_cons, Option.some_inj] at hh
      exact ⟨by rw [hh], ((digitChar_eq_zero hn).mp hh)⟩
  | succ fuel ih =>
    intro n acc hn
    by_cases h10 : n < 10
    · refine ⟨[digitChar n], ?_, by simp, ?_, ?_, ?_⟩
      · simp [natDigitsGo, h10]
      · intro c hc
        rw [List.mem_singleton] at hc
        subst hc
        exact digitChar_isDigit h10
      · simp [digitsVal, digitChar_toNat h10]
      · intro hh
        simp only [List.head?_cons, Option.some_inj] at hh
        exact ⟨by rw [hh], ((digitChar_eq_zero h10).mp hh)⟩
    · have hdiv : n / 10 < 10 ^ (fuel + 1) := by
        rw [Nat.div_lt_iff_lt_mul (by norm_num : (0:ℕ) < 10)]
        calc n < 10 ^ (fuel + 1 + 1) := hn
        _ = 10 ^ (fuel + 1) * 10 := by ring
      obtain ⟨ds', heq, hne, hdig, hval, hhead⟩ := ih (n / 10) (digitChar (n % 10) :: acc) hdiv
      have hgo : natDigitsGo (fuel + 1 + 1) n acc
          = natDigitsGo (fuel + 1) (n / 10) (digitChar (n % 10) :: acc) := by
        simp [natDigitsGo, h10]
      refine ⟨ds' ++ [digitChar (n % 10)], ?_, by simp [hne], ?_, ?_, ?_⟩
      · rw [hgo, heq, List.append_assoc]
        rfl
      · intro c hc
        rcases List.mem_append.mp hc with h | h
        · exact hdig c h
        · rw [List.mem_singleton] at h
          subst h
          exact digitChar_isDigit (Nat.mod_lt n (by norm_num))
      · show digitsVal (ds' ++ [digitChar (n % 10)]) = n
        unfold digitsVal
        rw [List.foldl_append]
        have : (digitChar (n % 10)).toNat - 48 = n % 10 :=
          digitChar_toNat (Nat.mod_lt n (by norm_num))
        simp only [List.foldl_cons, List.foldl_nil]
        rw [this]
        have hv : ds'.foldl (fun a c => 10 * a + (c.toNat - 48)) 0 = n / 10 := hval
        rw [hv]
        exact Nat.div_add_mod n 10
      · intro hh
        rw [List.head?_append] at hh
        cases hds : ds'.head? with
        | none => exact absurd hds (by cases ds' with | nil => exact absurd rfl hne | cons a l => simp)
        | some a =>
          rw [hds] at hh
          simp only [Option.or_some, Option.some_inj] at hh
          subst hh
          obtain ⟨hd0, hq0⟩ := hhead hds
          have : (10 : ℕ) ≤ n := Nat.le_of_not_lt h10
          have : 1 ≤ n / 10 := Nat.one_le_div_iff (by norm_num) |>.mpr this
          omega

theorem natDigits_spec (n : ℕ) :
    natDigits n ≠ [] ∧ (∀ c ∈ natDigits n, c.isDigit = true)
      ∧ digitsVal (natDigits n) = n
      ∧ ((natDigits n).head? = some '0' → natDigits n = ['0'] ∧ n = 0) := by
  have hn : n < 10 ^ (n + 1) := by
    calc n < 10 ^ n := Nat.lt_pow_self (by norm_num) n
    _ ≤ 10 ^ (n + 1) := Nat.pow_le_pow_right (by norm_num) (Nat.le_succ n)
  obtain ⟨ds, heq, hne, hdig, hval, hhead⟩ := natDigitsGo_spec n n [] hn
  have hds : natDigits n = ds := by
    rw [natDigits, heq, List.append_nil]
  rw [hds]
  exact ⟨hne, hdig, hval, hhead⟩

theorem natDigits_inj {m n : ℕ} (h : natDigits m = natDigits n) : m = n := by
  have hm := (natDigits_spec m).2.2.1
  have hn := (natDigits_spec n).2.2.1
  rw [← hm, ← hn, h]

theorem varName_inj {m n : ℕ} (h : varName m = varName n) : m = n := by
  simp only [varName, List.cons.injEq, true_and] at h
  exact natDigits_inj h

theorem word_of_digit {c : Char} (h : c.isDigit = true) : isWordChar c = true := by
  simp [isWordChar, h]

theorem varName_wordStr (n : ℕ) : wordStr (varName n) := by
  refine ⟨by simp [varName], ?_⟩
  intro c hc
  simp only [varName, List.mem_cons] at hc
  rcases hc with h | h | h | h
  · subst h; decide
  · subst h; decide
  · subst h; decide
  · exact word_of_digit ((natDigits_spec n).2.1 c h)

theorem varName_not_keyword (n : ℕ) : varName n ∉ pyKeywords := by
  intro h
  have hv : ∀ k ∈ pyKeywords, k.head? ≠ some 'v' := by decide
  exact hv _ h rfl

theorem isDigitStr_natDigits (n : ℕ) : isDigitStr (natDigits n) = true := by
  obtain ⟨hne, hdig, _, hhead⟩ := natDigits_spec n
  simp only [isDigitStr, Bool.and_eq_true]
  refine ⟨⟨?_, ?_⟩, ?_⟩
  · cases hx : natDigits n with
    | nil => exact absurd hx hne
    | cons a l => simp
  · rw [List.all_eq_true]
    exact hdig
  · exact decide_eq_true (fun hh => (hhead hh).1)

theorem isCanonVar_varName (n : ℕ) : isCanonVar (varName n) = true := by
  show isDigitStr (natDigits n) = true
  exact isDigitStr_natDigits n

/-! ## C9: association list and mapping-builder facts -/

theorem alookup_eq_none {l : List (Str × Str)} {x : Str} :
    alookup l x = none ↔ x ∉ l.map Prod.fst := by
  induction l with
  | nil => simp [alookup]
  | cons e rest ih =>
    obtain ⟨k, v⟩ := e
    simp only [alookup, List.map_cons, List.mem_cons]
    by_cases hx : x = k
    · simp [hx]
    · simp [hx, ih]

theorem alookup_append_some {l1 l2 : List (Str × Str)} {x : Str} {v : Str}
    (h : alookup l1 x = some v) : alookup (l1 ++ l2) x = some v := by
  induction l1 with
  | nil => simp [alookup] at h
  | cons e rest ih =>
    obtain ⟨k, w⟩ := e
    simp only [alookup, List.cons_append] at h ⊢
    by_cases hx : x = k
    · rwa [if_pos hx] at h ⊢
    · rw [if_neg hx] at h ⊢
      exact ih h

theorem alookup_append_none {l1 l2 : List (Str × Str)} {x : Str}
    (h : alookup l1 x = none) : alookup (l1 ++ l2) x = alookup l2 x := by
  induction l1 with
  | nil => simp
  | cons e rest ih =>
    obtain ⟨k, w⟩ := e
    simp only [alookup, List.cons_append] at h ⊢
    by_cases hx : x = k
    · rw [if_pos hx] at h; exact absurd h (by simp)
    · rw [if_neg hx] at h ⊢
      exact ih h

theorem alookup_mem {l : List (Str × Str)} {x v : Str}
    (h : alookup l x = some v) : (x, v) ∈ l := by
  induction l with
  | nil => simp [alookup] at h
  | cons e rest ih =>
    obtain ⟨k, w⟩ := e
    simp only [alookup] at h
    by_cases hx : x = k
    · rw [if_pos hx] at h
      simp only [Option.some_inj] at h
      subst hx; subst h
      exact List.mem_cons_self _ _
    · rw [if_neg hx] at h
      exact List.mem_cons_of_mem _ (ih h)

theorem alookup_isSome_of_mem_keys {l : List (Str × Str)} {x : Str}
    (h : x ∈ l.map Prod.fst) : (alookup l x).isSome = true := by
  cases hl : alookup l x with
  | none => exact absurd (alookup_eq_none.mp hl) (by simpa using h)
  | some v => rfl

theorem bm_go_prefix : ∀ (ts : List Str) (acc : List (Str × Str)),
    ∃ ext, buildMapGo ts acc = acc ++ ext := by
  intro ts
  induction ts with
  | nil => intro acc; exact ⟨[], by simp [buildMapGo]⟩
  | cons t ts ih =>
    intro acc
    simp only [buildMapGo]
    split
    · exact ih acc
    · obtain ⟨ext, hext⟩ := ih (acc ++ [(t, varName acc.length)])
      exact ⟨[(t, varName acc.length)] ++ ext, by rw [hext, List.append_assoc]⟩

theorem bm_go_pres {t : Str} : ∀ (ts : List Str) (acc : List (Str × Str)),
    (alookup acc t).isSome = true → (alookup (buildMapGo ts acc) t).isSome = true := by
  intro ts acc h
  obtain ⟨ext, hext⟩ := bm_go_prefix ts acc
  rw [hext]
  cases hl : alookup acc t with
  | none => rw [hl] at h; exact absurd h (by simp)
  | some v => rw [alookup_append_some hl]; rfl

theorem GoodAcc_nil : GoodAcc [] := ⟨by simp, by simp, by simp⟩

theorem GoodAcc_snoc {acc : List (Str × Str)} {t : Str} (h : GoodAcc acc)
    (hkw : t ∉ pyKeywords) (hnew : alookup acc t = none) :
    GoodAcc (acc ++ [(t, varName acc.length)]) := by
  obtain ⟨hvals, hnodup, hkws⟩ := h
  refine ⟨?_, ?_, ?_⟩
  · rw [List.map_append, hvals, List.length_append]
    simp [List.range_succ]
  · rw [List.map_append]
    simp only [List.map_cons, List.map_nil]
    rw [List.nodup_append]
    refine ⟨hnodup, by simp, ?_⟩
    intro x hx
    simp only [List.mem_singleton]
    intro hxt
    subst hxt
    exact (alookup_eq_none.mp hnew) hx
  · intro e he
    rcases List.mem_append.mp he with h | h
    · exact hkws e h
    · rw [List.mem_singleton] at h
      subst h
      exact hkw

theorem bm_go_good : ∀ (ts : List Str) (acc : List (Str × Str)),
    GoodAcc acc → GoodAcc (buildMapGo ts acc) := by
  intro ts
  induction ts with
  | nil => intro acc h; exact h
  | cons t ts ih =>
    intro acc h
    simp only [buildMapGo]
    split
    · exact ih acc h
    · rename_i hcond
      push_neg at hcond
      have hnone : alookup acc t = none := by
        cases hl : alookup acc t with
        | none => rfl
        | some v => exact absurd (by rw [hl]; rfl) hcond.2
      exact ih _ (GoodAcc_snoc h hcond.1 hnone)

theorem bm_go_keys : ∀ (ts : List Str) (acc : List (Str × Str)) (e : Str × Str),
    e ∈ buildMapGo ts acc → e ∈ acc ∨ (e.1 ∈ ts ∧ e.1 ∉ pyKeywords) := by
  intro ts
  induction ts with
  | nil => intro acc e he; exact Or.inl he
  | cons t ts ih =>
    intro acc e he
    simp only [buildMapGo] at he
    split at he
    · rcases ih acc e he with h | h
      · exact Or.inl h
      · exact Or.inr ⟨List.mem_cons_of_mem _ h.1, h.2⟩
    · rename_i hcond
      push_neg at hcond
      rcases ih _ e he with h | h
      · rcases List.mem_append.mp h with h | h
        · exact Or.inl h
        · rw [List.mem_singleton] at h
          subst h
          exact Or.inr ⟨List.mem_cons_self _ _, hcond.1⟩
      · exact Or.inr ⟨List.mem_cons_of_mem _ h.1, h.2⟩

theorem bm_go_mem_isSome {t : Str} : ∀ (ts : List Str) (acc : List (Str × Str)),
    t ∈ ts → t ∉ pyKeywords → (alookup (buildMapGo ts acc) t).isSome = true := by
  intro ts
  induction ts with
  | nil => intro acc h; simp at h
  | cons u ts ih =>
    intro acc hmem hkw
    simp only [buildMapGo]
    rcases List.mem_cons.mp hmem with heq | htail
    · subst heq
      split
      · rename_i hcond
        rcases hcond with h | h
        · exact absurd h hkw
        · exact bm_go_pres ts acc h
      · refine bm_go_pres ts _ ?_
        cases hl : alookup acc t with
        | some v => rw [alookup_append_some hl]; rfl
        | none =>
          rw [alookup_append_none hl]
          simp [alookup]
    · split
      · exact ih acc htail hkw
      · exact ih _ htail hkw

/-! ## C9: identifier token facts -/

theorem identGuard_false (r : Str) : identGuard (false, r) = none := rfl

theorem identGuard_nil (b : Bool) : identGuard (b, []) = none := by cases b <;> rfl

theorem identGuard_token {c : Char} {cs : Str} (h : c.isDigit = false) :
    identGuard (true, c :: cs) = some (c :: cs) := by
  simp [identGuard, h]

theorem identGuard_digit {c : Char} {cs : Str} (h : c.isDigit = true) :
    identGuard (true, c :: cs) = none := by
  simp [identGuard, h]

theorem identTokens_chunk {s : Str} {t : Str} (h : t ∈ identTokens s) :
    (true, t) ∈ chunks s ∧ ∃ c cs, t = c :: cs ∧ c.isDigit = false := by
  simp only [identTokens, List.mem_filterMap] at h
  obtain ⟨bc, hbc, hcond⟩ := h
  obtain ⟨b, r⟩ := bc
  cases b with
  | false => rw [identGuard_false] at hcond; cases hcond
  | true =>
    cases r with
    | nil => rw [identGuard_nil] at hcond; cases hcond
    | cons c cs =>
      by_cases hd : c.isDigit = true
      · rw [identGuard_digit hd] at hcond; cases hcond
      · have hd' : c.isDigit = false := by simpa using hd
        rw [identGuard_token hd'] at hcond
        simp only [Option.some_inj] at hcond
        subst hcond
        exact ⟨hbc, c, cs, rfl, hd'⟩

theorem identTokens_wordStr {s : Str} {t : Str} (h : t ∈ identTokens s) : wordStr t := by
  obtain ⟨hchunk, _⟩ := identTokens_chunk h
  have hok := (WF_chunks s).1 (true, t) hchunk
  exact ⟨hok.1, hok.2⟩

theorem identTokens_head_not_digit {s : Str} {t : Str} (h : t ∈ identTokens s) :
    ∃ c cs, t = c :: cs ∧ c.isDigit = false :=
  (identTokens_chunk h).2

/-! ## C9: sequential replacement as simultaneous substitution -/

theorem ChunksWF_substOne {e : Str × Str} {L : List (Bool × Str)}
    (h : ChunksWF L) (hw : wordStr e.2) : ChunksWF (substOne e L) := by
  obtain ⟨hok, hch⟩ := h
  constructor
  · intro bc hbc
    simp only [substOne, List.mem_map] at hbc
    obtain ⟨bc0, hbc0, heq⟩ := hbc
    by_cases hc : bc0.1 = true ∧ bc0.2 = e.1
    · rw [if_pos hc] at heq
      subst heq
      exact ⟨hw.1, fun c hc2 => by rw [hw.2 c hc2, hc.1]⟩
    · rw [if_neg hc] at heq
      subst heq
      exact hok bc0 hbc0
  · show List.Chain' _ (List.map _ L)
    rw [List.chain'_map]
    refine hch.imp ?_
    intro a b hab
    by_cases hca : a.1 = true ∧ a.2 = e.1 <;> by_cases hcb : b.1 = true ∧ b.2 = e.1
    · rw [if_pos hca, if_pos hcb]; exact hab
    · rw [if_pos hca, if_neg hcb]; exact hab
    · rw [if_neg hca, if_pos hcb]; exact hab
    · rw [if_neg hca, if_neg hcb]; exact hab

theorem replaceWord_eq (o r : Str) (code : Str) :
    replaceWord o r code = unchunk (substOne (o, r) (chunks code)) := rfl

theorem substList_nil (L : List (Bool × Str)) : substList [] L = L := by
  simp [substList, alookup]

theorem substOne_substList {e : Str × Str} {m : List (Str × Str)} (L : List (Bool × Str))
    (hkv : ∀ e2 ∈ e :: m, e2.1 ≠ e.2) :
    substList m (substOne e L) = substList (e :: m) L := by
  obtain ⟨k, v⟩ := e
  have hnone : alookup m v = none := by
    rw [alookup_eq_none]
    intro hmem
    obtain ⟨e2, he2, heq⟩ := List.mem_map.mp hmem
    exact hkv e2 (List.mem_cons_of_mem _ he2) heq
  simp only [substList, substOne, List.map_map]
  refine List.map_congr_left ?_
  intro bc _
  obtain ⟨b, r⟩ := bc
  simp only [Function.comp]
  by_cases hb : b = true
  · subst hb
    by_cases hr : r = k
    · subst hr
      simp [alookup, hnone]
    · simp [alookup, hr]
  · have hb' : b = false := by
      cases b
      · rfl
      · exact absurd rfl hb
    subst hb'
    simp

theorem applyMapping_eq_subst : ∀ (m : List (Str × Str)) (L : List (Bool × Str)),
    ChunksWF L →
    (∀ e ∈ m, wordStr e.1 ∧ wordStr e.2) →
    (∀ e ∈ m, ∀ e2 ∈ m, e2.1 ≠ e.2) →
    applyMapping m (unchunk L) = unchunk (substList m L) := by
  intro m
  induction m with
  | nil =>
    intro L _ _ _
    rw [substList_nil]
    rfl
  | cons e m' ih =>
    intro L hwf hw hkv
    show applyMapping m' (replaceWord e.1 e.2 (unchunk L)) = _
    rw [replaceWord_eq, chunks_unchunk L hwf, Prod.mk.eta]
    have hwf1 : ChunksWF (substOne e L) :=
      ChunksWF_substOne hwf (hw e (List.mem_cons_self _ _)).2
    rw [ih (substOne e L) hwf1
      (fun x hx => hw x (List.mem_cons_of_mem _ hx))
      (fun x hx y hy => hkv x (List.mem_cons_of_mem _ hx) y (List.mem_cons_of_mem _ hy))]
    rw [substOne_substList L (fun e2 he2 => hkv e (List.mem_cons_self _ _) e2 he2)]

theorem bm_entry_facts {y : Str} {e : Str × Str} (he : e ∈ buildMapping (identTokens y)) :
    (e.1 ∈ identTokens y ∧ e.1 ∉ pyKeywords) ∧ ∃ n, e.2 = varName n := by
  constructor
  · rcases bm_go_keys (identTokens y) [] e he with h | h
    · simp at h
    · exact h
  · have hg : GoodAcc (buildMapping (identTokens y)) :=
      bm_go_good (identTokens y) [] GoodAcc_nil
    have hv : e.2 ∈ (buildMapping (identTokens y)).map Prod.snd :=
      List.mem_map.mpr ⟨e, he, rfl⟩
    rw [hg.1] at hv
    obtain ⟨n, _, heq⟩ := List.mem_map.mp hv
    exact ⟨n, heq.symm⟩

theorem bm_word_hyp {y : Str} (e : Str × Str) (he : e ∈ buildMapping (identTokens y)) :
    wordStr e.1 ∧ wordStr e.2 := by
  obtain ⟨⟨hk, _⟩, n, hv⟩ := bm_entry_facts he
  exact ⟨identTokens_wordStr hk, hv ▸ varName_wordStr n⟩

theorem bm_kv_hyp {y : Str} (hnc : ∀ t ∈ identTokens y, isCanonVar t = false)
    (e : Str × Str) (he : e ∈ buildMapping (identTokens y))
    (e2 : Str × Str) (he2 : e2 ∈ buildMapping (identTokens y)) : e2.1 ≠ e.2 := by
  obtain ⟨⟨hk2, _⟩, _⟩ := bm_entry_facts he2
  obtain ⟨_, n, hv⟩ := bm_entry_facts he
  intro heq
  have h1 : isCanonVar e2.1 = false := hnc e2.1 hk2
  have h2 : isCanonVar e2.1 = true := by rw [heq, hv]; exact isCanonVar_varName n
  rw [h1] at h2
  exact Bool.false_ne_true h2

theorem rename_eq_subst (y : Str)
    (hnc : ∀ t ∈ identTokens y, isCanonVar t = false) :
    normalizeVariableNames y
      = unchunk (substList (buildMapping (identTokens y)) (chunks y)) := by
  have h := applyMapping_eq_subst (buildMapping (identTokens y)) (chunks y)
    (WF_chunks y) (fun e he => bm_word_hyp e he) (fun e he e2 he2 => bm_kv_hyp hnc e he e2 he2)
  rw [unchunk_chunks] at h
  exact h

/-! ## C9: tokens of a substituted text -/

theorem ChunksWF_substList {m : List (Str × Str)} {L : List (Bool × Str)}
    (h : ChunksWF L) (hv : ∀ e ∈ m, wordStr e.2) : ChunksWF (substList m L) := by
  obtain ⟨hok, hch⟩ := h
  constructor
  · intro bc hbc
    simp only [substList, List.mem_map] at hbc
    obtain ⟨bc0, hbc0, heq⟩ := hbc
    by_cases hb : bc0.1 = true
    · rw [if_pos hb] at heq
      subst heq
      cases hl : alookup m bc0.2 with
      | none =>
        simp only [Option.getD_none]
        have h0 := hok bc0 hbc0
        exact ⟨h0.1, fun c hc => by rw [h0.2 c hc, hb]⟩
      | some v =>
        simp only [Option.getD_some]
        have hwv := hv (bc0.2, v) (alookup_mem hl)
        exact ⟨hwv.1, fun c hc => by rw [hwv.2 c hc, hb]⟩
    · rw [if_neg hb] at heq
      subst heq
      exact hok bc0 hbc0
  · show List.Chain' _ (List.map _ L)
    rw [List.chain'_map]
    refine hch.imp ?_
    intro a b hab
    by_cases hca : a.1 = true <;> by_cases hcb : b.1 = true
    · rw [if_pos hca, if_pos hcb]; exact hab
    · rw [if_pos hca, if_neg hcb]; exact hab
    · rw [if_neg hca, if_pos hcb]; exact hab
    · rw [if_neg hca, if_neg hcb]; exact hab

theorem substList_filterMap_guard (m : List (Str × Str))
    (hv : ∀ e ∈ m, ∃ n, e.2 = varName n)
    (hk : ∀ e ∈ m, ∃ c cs, e.1 = c :: cs ∧ c.isDigit = false) :
    ∀ L : List (Bool × Str),
      (substList m L).filterMap identGuard
        = ((L.filterMap identGuard).map (fun t => (alookup m t).getD t)) := by
  have hnilkey : alookup m [] = none := by
    rw [alookup_eq_none]
    intro hmem
    obtain ⟨e, he, heq⟩ := List.mem_map.mp hmem
    obtain ⟨c, cs, hcs, _⟩ := hk e he
    rw [hcs] at heq
    exact absurd heq (by simp)
  intro L
  induction L with
  | nil => rfl
  | cons bc L' ih =>
    obtain ⟨b, r⟩ := bc
    cases b with
    | false =>
      have hs : substList m ((false, r) :: L') = (false, r) :: substList m L' := by
        simp [substList]
      rw [hs]
      rw [List.filterMap_cons_none (identGuard_false r),
        List.filterMap_cons_none (identGuard_false r)]
      exact ih
    | true =>
      have hs : substList m ((true, r) :: L')
          = (true, (alookup m r).getD r) :: substList m L' := by
        simp [substList]
      rw [hs]
      cases r with
      | nil =>
        rw [hnilkey, Option.getD_none]
        rw [List.filterMap_cons_none (identGuard_nil true),
          List.filterMap_cons_none (identGuard_nil true)]
        exact ih
      | cons c cs =>
        cases hl : alookup m (c :: cs) with
        | none =>
          simp only [Option.getD_none]
          by_cases hd : c.isDigit = true
          · rw [List.filterMap_cons_none (identGuard_digit hd),
              List.filterMap_cons_none (identGuard_digit hd)]
            exact ih
          · have hd' : c.isDigit = false := by simpa using hd
            rw [List.filterMap_cons_some (identGuard_token hd'),
              List.filterMap_cons_some (identGuard_token hd'), List.map_cons, ih]
            simp [hl]
        | some v =>
          simp only [Option.getD_some]
          obtain ⟨n, hvn⟩ := hv ((c :: cs), v) (alookup_mem hl)
          obtain ⟨c', cs', hkey, hcd⟩ := hk ((c :: cs), v) (alookup_mem hl)
          simp only [List.cons.injEq] at hkey
          have hcdig : c.isDigit = false := by rw [hkey.1]; exact hcd
          have hvn' : v = varName n := hvn
          have hg1 : identGuard (true, v) = some v := by
            rw [hvn']
            exact identGuard_token (by decide)
          rw [List.filterMap_cons_some hg1,
            List.filterMap_cons_some (identGuard_token hcdig), List.map_cons, ih]
          simp [hl]

/-! ## C9: the second rename pass is the identity -/

theorem identTokens_subst (y : Str) {m : List (Str × Str)}
    (hv : ∀ e ∈ m, ∃ n, e.2 = varName n)
    (hk : ∀ e ∈ m, ∃ c cs, e.1 = c :: cs ∧ c.isDigit = false)
    (hvw : ∀ e ∈ m, wordStr e.2) :
    identTokens (unchunk (substList m (chunks y)))
      = (identTokens y).map (fun t => (alookup m t).getD t) := by
  have hwf2 : ChunksWF (substList m (chunks y)) := ChunksWF_substList (WF_chunks y) hvw
  show (chunks (unchunk (substList m (chunks y)))).filterMap identGuard = _
  rw [chunks_unchunk _ hwf2]
  exact substList_filterMap_guard m hv hk (chunks y)

theorem diagMap_keys (acc : List (Str × Str)) :
    (diagMap acc).map Prod.fst = acc.map Prod.snd := by
  simp [diagMap, List.map_map, Function.comp]

theorem bm_go_diag (m : List (Str × Str)) (hgm : GoodAcc m) :
    ∀ (ts : List Str) (acc : List (Str × Str)), GoodAcc acc →
      buildMapGo ts acc = m →
      buildMapGo (ts.map (fun t => (alookup m t).getD t)) (diagMap acc) = diagMap m := by
  intro ts
  induction ts with
  | nil =>
    intro acc _ heq
    simp only [List.map_nil, buildMapGo]
    rw [show acc = m from heq]
  | cons t ts ih =>
    intro acc hga heq
    simp only [buildMapGo] at heq
    simp only [List.map_cons, buildMapGo]
    by_cases hkw : t ∈ pyKeywords
    · rw [if_pos (Or.inl hkw)] at heq
      have hnone : alookup m t = none := by
        rw [alookup_eq_none]
        intro hmem
        obtain ⟨e, he, hfst⟩ := List.mem_map.mp hmem
        exact (hgm.2.2 e he) (hfst ▸ hkw)
      rw [hnone]
      simp only [Option.getD_none]
      rw [if_pos (Or.inl hkw)]
      exact ih acc hga heq
    · by_cases hsome : (alookup acc t).isSome = true
      · rw [if_pos (Or.inr hsome)] at heq
        obtain ⟨v, hvl⟩ : ∃ v, alookup acc t = some v := by
          cases hx : alookup acc t with
          | none => rw [hx] at hsome; exact absurd hsome (by simp)
          | some v => exact ⟨v, rfl⟩
        have hml : alookup m t = some v := by
          obtain ⟨ext, hext⟩ := bm_go_prefix ts acc
          rw [← heq, hext]
          exact alookup_append_some hvl
        rw [hml]
        simp only [Option.getD_some]
        have hvmem : v ∈ acc.map Prod.snd := List.mem_map.mpr ⟨(t, v), alookup_mem hvl, rfl⟩
        have hsome2 : (alookup (diagMap acc) v).isSome = true :=
          alookup_isSome_of_mem_keys (by rw [diagMap_keys]; exact hvmem)
        rw [if_pos (Or.inr hsome2)]
        exact ih acc hga heq
      · have hnoneacc : alookup acc t = none := by
          cases hx : alookup acc t with
          | none => rfl
          | some v => rw [hx] at hsome; exact absurd rfl hsome
        rw [if_neg (by
          push_neg
          exact ⟨hkw, by rw [hnoneacc]; simp⟩)] at heq
        have hga' : GoodAcc (acc ++ [(t, varName acc.length)]) :=
          GoodAcc_snoc hga hkw hnoneacc
        have hml : alookup m t = some (varName acc.length) := by
          obtain ⟨ext, hext⟩ := bm_go_prefix ts (acc ++ [(t, varName acc.length)])
          rw [← heq, hext, List.append_assoc, alookup_append_none hnoneacc]
          apply alookup_append_some
          simp [alookup]
        rw [hml]
        simp only [Option.getD_some]
        have hnotmem : varName acc.length ∉ (diagMap acc).map Prod.fst := by
          rw [diagMap_keys, hga.1]
          intro hmem
          obtain ⟨j, hj, hje⟩ := List.mem_map.mp hmem
          rw [List.mem_range] at hj
          have := varName_inj hje
          omega
        have hnone2 : alookup (diagMap acc) (varName acc.length) = none :=
          alookup_eq_none.mpr hnotmem
        rw [if_neg (by
          push_neg
          exact ⟨varName_not_keyword _, by rw [hnone2]; simp⟩)]
        have hlen : (diagMap acc).length = acc.length := by simp [diagMap]
        rw [hlen]
        have hdiag' : diagMap acc ++ [(varName acc.length, varName acc.length)]
            = diagMap (acc ++ [(t, varName acc.length)]) := by
          simp [diagMap]
        rw [hdiag']
        exact ih _ hga' heq

theorem buildMapping_diag (ts : List Str) :
    buildMapping (ts.map (fun t => (alookup (buildMapping ts) t).getD t))
      = diagMap (buildMapping ts) := by
  have hgm : GoodAcc (buildMapping ts) := bm_go_good ts [] GoodAcc_nil
  have h := bm_go_diag (buildMapping ts) hgm ts [] GoodAcc_nil rfl
  have hd : diagMap [] = [] := rfl
  rw [hd] at h
  exact h

theorem replaceWord_self (v : Str) (s : Str) : replaceWord v v s = s := by
  show unchunk ((chunks s).map
    (fun bc => if bc.1 = true ∧ bc.2 = v then (bc.1, v) else bc)) = s
  have hpt : ∀ bc : Bool × Str, (if bc.1 = true ∧ bc.2 = v then (bc.1, v) else bc) = bc := by
    intro bc
    split
    · rename_i h
      rw [← h.2]
    · rfl
  rw [List.map_congr_left (fun bc _ => hpt bc)]
  rw [show List.map (fun bc : Bool × Str => bc) (chunks s) = chunks s from by simp]
  exact unchunk_chunks s

theorem applyMapping_diagMap (m : List (Str × Str)) (s : Str) :
    applyMapping (diagMap m) s = s := by
  induction m generalizing s with
  | nil => rfl
  | cons e m' ih =>
    show applyMapping (diagMap m') (replaceWord e.2 e.2 s) = s
    rw [replaceWord_self]
    exact ih s

theorem rename_fixed (y : Str)
    (hnc : ∀ t ∈ identTokens y, isCanonVar t = false) :
    normalizeVariableNames (normalizeVariableNames y) = normalizeVariableNames y := by
  have hrw := rename_eq_subst y hnc
  have hv : ∀ e ∈ buildMapping (identTokens y), ∃ n, e.2 = varName n :=
    fun e he => (bm_entry_facts he).2
  have hk : ∀ e ∈ buildMapping (identTokens y), ∃ c cs, e.1 = c :: cs ∧ c.isDigit = false :=
    fun e he => identTokens_head_not_digit (bm_entry_facts he).1.1
  have hvw : ∀ e ∈ buildMapping (identTokens y), wordStr e.2 :=
    fun e he => (bm_word_hyp e he).2
  have htok : identTokens (normalizeVariableNames y)
      = (identTokens y).map (fun t => (alookup (buildMapping (identTokens y)) t).getD t) := by
    rw [hrw]
    exact identTokens_subst y hv hk hvw
  show applyMapping (buildMapping (identTokens (normalizeVariableNames y)))
    (normalizeVariableNames y) = normalizeVariableNames y
  rw [htok, buildMapping_diag]
  exact applyMapping_diagMap _ _

/-! ## C9: splitting and joining lines -/

theorem splitNl_ne_nil (s : Str) : splitNl s ≠ [] := by
  cases s with
  | nil => simp [splitNl]
  | cons c cs =>
    by_cases hc : c = '\n'
    · simp [splitNl, hc]
    · simp only [splitNl, if_neg hc]
      cases hsp : splitNl cs with
      | nil => simp
      | cons l ls => simp

theorem splitNl_cons_nl (s : Str) : splitNl ('\n' :: s) = [] :: splitNl s := by
  simp [splitNl]

theorem splitNl_cons_not_nl {a : Char} (ha : a ≠ '\n') (s : Str) :
    ∃ h t, splitNl s = h :: t ∧ splitNl (a :: s) = (a :: h) :: t := by
  cases hsp : splitNl s with
  | nil => exact absurd hsp (splitNl_ne_nil s)
  | cons l ls =>
    refine ⟨l, ls, rfl, ?_⟩
    simp [splitNl, ha, hsp]

theorem joinNl_cons_cons (a b : Str) (r : List Str) :
    joinNl (a :: b :: r) = a ++ '\n' :: joinNl (b :: r) := rfl

theorem joinNl_splitNl (s : Str) : joinNl (splitNl s) = s := by
  induction s with
  | nil => rfl
  | cons c cs ih =>
    by_cases hc : c = '\n'
    · subst hc
      rw [splitNl_cons_nl]
      cases hsp : splitNl cs with
      | nil => exact absurd hsp (splitNl_ne_nil cs)
      | cons l ls =>
        rw [hsp] at ih
        rw [joinNl_cons_cons]
        simp only [List.nil_append]
        rw [ih]
    · obtain ⟨h, t, hsp, hsp2⟩ := splitNl_cons_not_nl hc cs
      rw [hsp2]
      rw [hsp] at ih
      cases t with
      | nil =>
        show c :: h = c :: cs
        rw [show joinNl [h] = h from rfl] at ih
        rw [ih]
      | cons t0 ts =>
        rw [joinNl_cons_cons]
        simp only [List.cons_append]
        rw [← joinNl_cons_cons, ih]

theorem splitNl_no_nl (s : Str) : ∀ l ∈ splitNl s, '\n' ∉ l := by
  induction s with
  | nil =>
    intro l hl
    simp [splitNl] at hl
    subst hl
    simp
  | cons c cs ih =>
    intro l hl
    by_cases hc : c = '\n'
    · subst hc
      rw [splitNl_cons_nl] at hl
      rcases List.mem_cons.mp hl with rfl | hl2
      · simp
      · exact ih l hl2
    · obtain ⟨h, t, hsp, hsp2⟩ := splitNl_cons_not_nl hc cs
      rw [hsp2] at hl
      rcases List.mem_cons.mp hl with rfl | hl2
      · intro hm
        rcases List.mem_cons.mp hm with he | hm2
        · exact hc he.symm
        · exact ih h (by rw [hsp]; exact List.mem_cons_self _ _) hm2
      · exact ih l (by rw [hsp]; exact List.mem_cons_of_mem _ hl2)

theorem mem_splitNl {c : Char} : ∀ (s : Str) {l : Str}, l ∈ splitNl s → c ∈ l → c ∈ s := by
  intro s
  induction s with
  | nil =>
    intro l hl hc
    simp [splitNl] at hl
    subst hl
    simp at hc
  | cons a s2 ih =>
    intro l hl hc
    by_cases ha : a = '\n'
    · subst ha
      rw [splitNl_cons_nl] at hl
      rcases List.mem_cons.mp hl with rfl | hl2
      · simp at hc
      · exact List.mem_cons_of_mem _ (ih hl2 hc)
    · obtain ⟨h, t, hsp, hsp2⟩ := splitNl_cons_not_nl ha s2
      rw [hsp2] at hl
      rcases List.mem_cons.mp hl with rfl | hl2
      · rcases List.mem_cons.mp hc with rfl | hc2
        · exact List.mem_cons_self _ _
        · exact List.mem_cons_of_mem _
            (ih (by rw [hsp]; exact List.mem_cons_self _ _) hc2)
      · exact List.mem_cons_of_mem _
          (ih (by rw [hsp]; exact List.mem_cons_of_mem _ hl2) hc)

theorem mem_joinNl {c : Char} (hc : c ≠ '\n') : ∀ (L : List Str), c ∈ joinNl L → ∃ l ∈ L, c ∈ l := by
  intro L
  induction L with
  | nil =>
    intro h
    simp [joinNl] at h
  | cons l L2 ih =>
    intro h
    cases L2 with
    | nil => exact ⟨l, List.mem_cons_self _ _, h⟩
    | cons l2 ls =>
      rw [joinNl_cons_cons] at h
      rcases List.mem_append.mp h with h1 | h2
      · exact ⟨l, List.mem_cons_self _ _, h1⟩
      · rcases List.mem_cons.mp h2 with he | h3
        · exact absurd he hc
        · obtain ⟨l0, hl0, hcl0⟩ := ih h3
          exact ⟨l0, List.mem_cons_of_mem _ hl0, hcl0⟩

/-! ## C9: characters of trimmed and stripped text -/

theorem mem_trimStr {c : Char} {l : Str} (h : c ∈ trimStr l) : c ∈ l := by
  unfold trimStr at h
  rw [List.mem_reverse] at h
  have h2 := (List.dropWhile_sublist isWs).subset h
  rw [List.mem_reverse] at h2
  exact (List.dropWhile_sublist isWs).subset h2

theorem mem_normalizeWhitespace {c : Char} (hc : c ≠ '\n') {s : Str}
    (h : c ∈ normalizeWhitespace s) : c ∈ s := by
  unfold normalizeWhitespace at h
  obtain ⟨l, hl, hcl⟩ := mem_joinNl hc _ h
  have hl1 := List.mem_of_mem_filter hl
  obtain ⟨l0, hl0, rfl⟩ := List.mem_map.mp hl1
  exact mem_splitNl _ hl0 (mem_trimStr hcl)

theorem stripHashGo_term {a : Char} (ht : isLineTerm a = true) (b : Bool) (cs : Str) :
    stripHashGo b (a :: cs) = a :: stripHashGo false cs := by
  simp [stripHashGo, ht]

theorem stripHashGo_true {a : Char} (ht : isLineTerm a = false) (cs : Str) :
    stripHashGo true (a :: cs) = stripHashGo true cs := by
  simp [stripHashGo, ht]

theorem stripHashGo_hash (cs : Str) :
    stripHashGo false ('#' :: cs) = stripHashGo true cs := by
  simp [stripHashGo, isLineTerm]

theorem stripHashGo_keep {a : Char} (ht : isLineTerm a = false) (hh : a ≠ '#') (cs : Str) :
    stripHashGo false (a :: cs) = a :: stripHashGo false cs := by
  simp [stripHashGo, ht, hh]

theorem mem_stripHashGo {c : Char} : ∀ (s : Str) (b : Bool), c ∈ stripHashGo b s → c ∈ s := by
  intro s
  induction s with
  | nil => intro b h; simp [stripHashGo] at h
  | cons a cs ih =>
    intro b h
    by_cases ht : isLineTerm a = true
    · rw [stripHashGo_term ht] at h
      rcases List.mem_cons.mp h with rfl | h2
      · exact List.mem_cons_self _ _
      · exact List.mem_cons_of_mem _ (ih false h2)
    · have ht2 : isLineTerm a = false := Bool.eq_false_iff.mpr ht
      cases b with
      | true =>
        rw [stripHashGo_true ht2] at h
        exact List.mem_cons_of_mem _ (ih true h)
      | false =>
        by_cases hh : a = '#'
        · subst hh
          rw [stripHashGo_hash] at h
          exact List.mem_cons_of_mem _ (ih true h)
        · rw [stripHashGo_keep ht2 hh] at h
          rcases List.mem_cons.mp h with rfl | h2
          · exact List.mem_cons_self _ _
          · exact List.mem_cons_of_mem _ (ih false h2)

theorem mem_removeHashComments {c : Char} {s : Str} (h : c ∈ removeHashComments s) : c ∈ s :=
  mem_stripHashGo s false h

theorem hash_free_go : ∀ (s : Str) (b : Bool), '#' ∉ stripHashGo b s := by
  intro s
  induction s with
  | nil => intro b h; simp [stripHashGo] at h
  | cons a cs ih =>
    intro b h
    by_cases ht : isLineTerm a = true
    · rw [stripHashGo_term ht] at h
      rcases List.mem_cons.mp h with he | h2
      · rw [← he] at ht
        exact absurd ht (by decide)
      · exact ih false h2
    · have ht2 : isLineTerm a = false := Bool.eq_false_iff.mpr ht
      cases b with
      | true =>
        rw [stripHashGo_true ht2] at h
        exact ih true h
      | false =>
        by_cases hh : a = '#'
        · subst hh
          rw [stripHashGo_hash] at h
          exact ih true h
        · rw [stripHashGo_keep ht2 hh] at h
          rcases List.mem_cons.mp h with he | h2
          · exact hh he.symm
          · exact ih false h2

theorem hash_free (s : Str) : '#' ∉ removeHashComments s := hash_free_go s false

/-! ## C9: a second comment-stripping pass is the identity -/

theorem map_eq_self {α : Type} (f : α → α) : ∀ (L : List α), (∀ a ∈ L, f a = a) → L.map f = L := by
  intro L
  induction L with
  | nil => intro _; rfl
  | cons a L2 ih =>
    intro hA
    simp only [List.map_cons]
    rw [hA a (List.mem_cons_self _ _), ih (fun x hx => hA x (List.mem_cons_of_mem _ hx))]

theorem stripHashGo_id : ∀ (l : Str), '#' ∉ l → stripHashGo false l = l := by
  intro l
  induction l with
  | nil => intro _; rfl
  | cons c cs ih =>
    intro h
    have hc : c ≠ '#' := fun he => h (by rw [he]; exact List.mem_cons_self _ _)
    have h2 : stripHashGo false cs = cs := ih (fun hm => h (List.mem_cons_of_mem _ hm))
    by_cases ht : isLineTerm c = true
    · rw [stripHashGo_term ht, h2]
    · rw [stripHashGo_keep (Bool.eq_false_iff.mpr ht) hc, h2]

theorem removeHashComments_id {t : Str} (h : '#' ∉ t) : removeHashComments t = t :=
  stripHashGo_id t h

theorem splitTriples_of_not_mem (q : Char) : ∀ (s : Str), q ∉ s → splitTriples q s = [s]
  | [], _ => rfl
  | [c], _ => rfl
  | [c1, c2], _ => rfl
  | c1 :: c2 :: c3 :: rest, h => by
    have h1 : ¬(c1 = q ∧ c2 = q ∧ c3 = q) :=
      fun hq => h (by rw [hq.1]; exact List.mem_cons_self _ _)
    have h2 : q ∉ c2 :: c3 :: rest := fun hm => h (List.mem_cons_of_mem _ hm)
    have hrec := splitTriples_of_not_mem q (c2 :: c3 :: rest) h2
    simp only [splitTriples, if_neg h1, hrec]

theorem removeTriples_of_not_mem (q : Char) {s : Str} (h : q ∉ s) : removeTriples q s = s := by
  unfold removeTriples
  rw [splitTriples_of_not_mem q s h]
  rfl

theorem removeComments_eq_hash {s : Str} (h1 : '"' ∉ s) (h2 : '\'' ∉ s) :
    removeComments s = removeHashComments s := by
  unfold removeComments
  rw [removeTriples_of_not_mem '"' (fun hm => h1 (mem_removeHashComments hm))]
  rw [removeTriples_of_not_mem '\'' (fun hm => h2 (mem_removeHashComments hm))]

theorem removeComments_id {t : Str} (h0 : '#' ∉ t) (h1 : '"' ∉ t) (h2 : '\'' ∉ t) :
    removeComments t = t := by
  rw [removeComments_eq_hash h1 h2, removeHashComments_id h0]

/-! ## C9: characters of the renamed text -/

theorem mem_unchunk {c : Char} {L : List (Bool × Str)} :
    c ∈ unchunk L ↔ ∃ bc ∈ L, c ∈ bc.2 := by
  unfold unchunk
  rw [List.mem_flatten]
  constructor
  · rintro ⟨l, hl, hc⟩
    obtain ⟨bc, hbc, rfl⟩ := List.mem_map.mp hl
    exact ⟨bc, hbc, hc⟩
  · rintro ⟨bc, hbc, hc⟩
    exact ⟨bc.2, List.mem_map.mpr ⟨bc, hbc, rfl⟩, hc⟩

theorem mem_replaceWord {c : Char} {o r s : Str} (h : c ∈ replaceWord o r s) :
    c ∈ s ∨ c ∈ r := by
  unfold replaceWord at h
  rw [mem_unchunk] at h
  obtain ⟨bc2, hbc2, hc⟩ := h
  obtain ⟨bc, hbc, rfl⟩ := List.mem_map.mp hbc2
  by_cases hcond : bc.1 = true ∧ bc.2 = o
  · rw [if_pos hcond] at hc
    exact Or.inr hc
  · rw [if_neg hcond] at hc
    exact Or.inl (by rw [← unchunk_chunks s]; exact mem_unchunk.mpr ⟨bc, hbc, hc⟩)

theorem mem_applyMapping {c : Char} : ∀ (m : List (Str × Str)) (s : Str),
    c ∈ applyMapping m s → c ∈ s ∨ ∃ e ∈ m, c ∈ e.2 := by
  intro m
  induction m with
  | nil => intro s h; exact Or.inl h
  | cons e m2 ih =>
    intro s h
    have h2 := ih (replaceWord e.1 e.2 s) h
    rcases h2 with h2 | ⟨e2, he2, hce⟩
    · rcases mem_replaceWord h2 with h3 | h3
      · exact Or.inl h3
      · exact Or.inr ⟨e, List.mem_cons_self _ _, h3⟩
    · exact Or.inr ⟨e2, List.mem_cons_of_mem _ he2, hce⟩

theorem mem_normalizeVariableNames {c : Char} {y : Str}
    (h : c ∈ normalizeVariableNames y) : c ∈ y ∨ isWordChar c = true := by
  unfold normalizeVariableNames at h
  rcases mem_applyMapping _ _ h with h2 | ⟨e, he, hce⟩
  · exact Or.inl h2
  · exact Or.inr ((bm_word_hyp e he).2.2 c hce)

/-! ## C9: word characters and the line discipline -/

theorem word_not_ws {c : Char} (h : isWordChar c = true) : isWs c = false := by
  cases hws : isWs c
  · rfl
  · exfalso
    simp [isWs] at hws
    rcases hws with ((((h1 | h1) | h1) | h1) | h1) | h1 <;> (subst h1; exact absurd h (by decide))

theorem word_ne_nl {c : Char} (h : isWordChar c = true) : c ≠ '\n' := by
  intro he
  rw [he] at h
  exact absurd h (by decide)

theorem ws_ne_nl_of_false {c : Char} (h : isWs c = false) : c ≠ '\n' := by
  intro he
  rw [he] at h
  exact absurd h (by decide)

theorem RNl_word_left {a b : Char} (h : isWordChar a = true) : RNl a b := by
  constructor
  · intro hx
    rw [word_not_ws h] at hx
    exact Bool.false_ne_true hx.1
  · intro hx
    exact word_ne_nl h hx.1

theorem RNl_word_right {a b : Char} (h : isWordChar b = true) : RNl a b := by
  constructor
  · intro hx
    exact word_ne_nl h hx.2
  · intro hx
    rw [word_not_ws h] at hx
    exact Bool.false_ne_true hx.2

theorem RNl_not_nl {a b : Char} (ha : a ≠ '\n') (hb : b ≠ '\n') : RNl a b :=
  ⟨fun hx => hb hx.2, fun hx => ha hx.1⟩

theorem RNl_ws_left {a b : Char} (ha : isWs a = false) (hb : a ≠ '\n') : RNl a b := by
  constructor
  · intro hx
    rw [ha] at hx
    exact Bool.false_ne_true hx.1
  · intro hx
    exact hb hx.1

theorem chain'_RNl_of_no_nl : ∀ (l : Str), (∀ c ∈ l, c ≠ '\n') → l.Chain' RNl := by
  intro l
  induction l with
  | nil => intro _; exact List.chain'_nil
  | cons a l2 ih =>
    intro h
    rw [List.chain'_cons']
    refine ⟨?_, ih (fun c hc => h c (List.mem_cons_of_mem _ hc))⟩
    intro b hb
    exact RNl_not_nl (h a (List.mem_cons_self _ _))
      (h b (List.mem_cons_of_mem _ (List.mem_of_mem_head? hb)))

/-! ## C9: the output of normalizeWhitespace is tidy -/

theorem dropWhile_head_false (p : Char → Bool) : ∀ (l : Str), ∀ c ∈ (l.dropWhile p).head?, p c = false := by
  intro l
  induction l with
  | nil => intro c hc; simp [List.dropWhile] at hc
  | cons a l2 ih =>
    intro c hc
    by_cases hp : p a = true
    · rw [List.dropWhile_cons_of_pos hp] at hc
      exact ih c hc
    · rw [List.dropWhile_cons_of_neg hp] at hc
      simp only [List.head?_cons, Option.mem_def, Option.some.injEq] at hc
      subst hc
      exact Bool.eq_false_iff.mpr hp

theorem getLast?_of_suffix {α : Type} {l1 l2 : List α} (h : l1 <:+ l2) (hne : l1 ≠ []) :
    l2.getLast? = l1.getLast? := by
  obtain ⟨t, rfl⟩ := h
  obtain ⟨w, hw⟩ : ∃ w, l1.getLast? = some w := by
    cases hx : l1.getLast? with
    | none => exact absurd (List.getLast?_eq_none_iff.mp hx) hne
    | some w => exact ⟨w, rfl⟩
  rw [List.getLast?_append, hw, Option.or_some]

theorem trimStr_head (l : Str) : ∀ c ∈ (trimStr l).head?, isWs c = false := by
  intro c hc
  unfold trimStr at hc
  rw [List.head?_reverse] at hc
  by_cases hX : (l.dropWhile isWs).reverse.dropWhile isWs = []
  · rw [hX] at hc
    simp at hc
  · have h2 := getLast?_of_suffix (List.dropWhile_suffix isWs) hX
    rw [← h2, List.getLast?_reverse] at hc
    exact dropWhile_head_false isWs l c hc

theorem trimStr_getLast (l : Str) : ∀ c ∈ (trimStr l).getLast?, isWs c = false := by
  intro c hc
  unfold trimStr at hc
  rw [List.getLast?_reverse] at hc
  exact dropWhile_head_false isWs _ c hc

theorem trimStr_eq_self {l : Str} (h1 : ∀ c ∈ l.head?, isWs c = false)
    (h2 : ∀ c ∈ l.getLast?, isWs c = false) : trimStr l = l := by
  have hd1 : l.dropWhile isWs = l := by
    cases l with
    | nil => rfl
    | cons a l2 =>
      exact List.dropWhile_cons_of_neg (by rw [h1 a rfl]; simp)
  have hd2 : (l.reverse).dropWhile isWs = l.reverse := by
    cases hl : l.reverse with
    | nil => rfl
    | cons a l2 =>
      have ha : isWs a = false := by
        apply h2
        rw [← List.head?_reverse, hl]
        rfl
      exact List.dropWhile_cons_of_neg (by rw [ha]; simp)
  unfold trimStr
  rw [hd1, hd2, List.reverse_reverse]

theorem getLast?_cons_of_ne_nil {α : Type} {a : α} {l : List α} (h : l ≠ []) :
    (a :: l).getLast? = l.getLast? := by
  cases l with
  | nil => exact absurd rfl h
  | cons b l2 => exact List.getLast?_cons_cons

theorem joinNl_ne_nil {l : Str} (hl : l ≠ []) (ls : List Str) : joinNl (l :: ls) ≠ [] := by
  cases ls with
  | nil => exact hl
  | cons l2 ls2 =>
    rw [joinNl_cons_cons]
    simp

theorem joinNl_head {l : Str} (hl : l ≠ []) (ls : List Str) :
    (joinNl (l :: ls)).head? = l.head? := by
  cases ls with
  | nil => rfl
  | cons l2 ls2 =>
    rw [joinNl_cons_cons, List.head?_append]
    cases l with
    | nil => exact absurd rfl hl
    | cons a l2 => rfl

theorem Tidy_joinNl : ∀ (L : List Str),
    (∀ l ∈ L, l ≠ [] ∧ ('\n' ∉ l) ∧ (∀ c ∈ l.head?, isWs c = false)
      ∧ (∀ c ∈ l.getLast?, isWs c = false)) →
    Tidy (joinNl L) := by
  intro L
  induction L with
  | nil =>
    intro _
    exact ⟨List.chain'_nil, by intro c hc; simp [joinNl] at hc,
      by intro c hc; simp [joinNl] at hc⟩
  | cons l L2 ih =>
    intro hA
    obtain ⟨hne, hnl, hh, hlast⟩ := hA l (List.mem_cons_self _ _)
    have hA2 : ∀ x ∈ L2, x ≠ [] ∧ ('\n' ∉ x) ∧ (∀ c ∈ x.head?, isWs c = false)
        ∧ (∀ c ∈ x.getLast?, isWs c = false) :=
      fun x hx => hA x (List.mem_cons_of_mem _ hx)
    cases L2 with
    | nil =>
      exact ⟨chain'_RNl_of_no_nl l (fun c hc he => hnl (he ▸ hc)), hh, hlast⟩
    | cons l2 ls =>
      obtain ⟨hch2, hh2, hlast2⟩ := ih hA2
      have hne2 : l2 ≠ [] := (hA2 l2 (List.mem_cons_self _ _)).1
      have hJne : joinNl (l2 :: ls) ≠ [] := joinNl_ne_nil hne2 ls
      obtain ⟨z, hz⟩ : ∃ z, (joinNl (l2 :: ls)).head? = some z := by
        cases hx : (joinNl (l2 :: ls)).head? with
        | none => exact absurd (List.head?_eq_none_iff.mp hx) hJne
        | some z => exact ⟨z, rfl⟩
      have hzws : isWs z = false := hh2 z (by rw [hz]; rfl)
      rw [joinNl_cons_cons]
      refine ⟨?_, ?_, ?_⟩
      · rw [List.chain'_append]
        refine ⟨chain'_RNl_of_no_nl l (fun c hc he => hnl (he ▸ hc)), ?_, ?_⟩
        · rw [List.chain'_cons']
          refine ⟨?_, hch2⟩
          intro b hb
          rw [hz] at hb
          simp only [Option.mem_def, Option.some.injEq] at hb
          subst hb
          exact ⟨fun hx => ws_ne_nl_of_false hzws hx.2,
            fun hx => by rw [hzws] at hx; exact Bool.false_ne_true hx.2⟩
        · intro x hx b hb
          simp only [List.head?_cons, Option.mem_def, Option.some.injEq] at hb
          subst hb
          have hxws : isWs x = false := hlast x hx
          exact ⟨fun hc => by rw [hxws] at hc; exact Bool.false_ne_true hc.1,
            fun hc => ws_ne_nl_of_false hxws hc.1⟩
      · intro c hc
        rw [List.head?_append] at hc
        cases hl : l.head? with
        | none => exact absurd (List.head?_eq_none_iff.mp hl) hne
        | some a =>
          rw [hl, Option.or_some] at hc
          exact hh c (by rw [hl]; exact hc)
      · intro c hc
        rw [List.getLast?_append, getLast?_cons_of_ne_nil hJne] at hc
        obtain ⟨w, hw⟩ : ∃ w, (joinNl (l2 :: ls)).getLast? = some w := by
          cases hx : (joinNl (l2 :: ls)).getLast? with
          | none => exact absurd (List.getLast?_eq_none_iff.mp hx) hJne
          | some w => exact ⟨w, rfl⟩
        rw [hw, Option.or_some] at hc
        exact hlast2 c (by rw [hw]; exact hc)

theorem Tidy_normalizeWhitespace (x : Str) : Tidy (normalizeWhitespace x) := by
  unfold normalizeWhitespace
  apply Tidy_joinNl
  intro l hl
  have hl1 := List.mem_of_mem_filter hl
  have hlp := List.of_mem_filter hl
  obtain ⟨l0, hl0, rfl⟩ := List.mem_map.mp hl1
  refine ⟨?_, ?_, trimStr_head l0, trimStr_getLast l0⟩
  · intro he
    rw [he] at hlp
    exact absurd hlp (by decide)
  · intro hm
    exact splitNl_no_nl x l0 hl0 (mem_trimStr hm)

/-! ## C9: tidy text is a fixed point of normalizeWhitespace -/

theorem tidy_split_aux : ∀ (y : Str), y.Chain' RNl → (∀ c ∈ y.getLast?, isWs c = false) →
    (∀ l ∈ (splitNl y).tail,
      l ≠ [] ∧ (∀ c ∈ l.head?, isWs c = false) ∧ (∀ c ∈ l.getLast?, isWs c = false))
    ∧ (∀ h ∈ (splitNl y).head?, ∀ c ∈ h.getLast?, isWs c = false) := by
  intro y
  induction y with
  | nil =>
    intro _ _
    constructor
    · intro l hl
      simp [splitNl] at hl
    · intro h hh c hc
      simp [splitNl] at hh
      subst hh
      simp at hc
  | cons a y2 ih =>
    intro hch hlast
    rw [List.chain'_cons'] at hch
    obtain ⟨hR, hch2⟩ := hch
    by_cases ha : a = '\n'
    · subst ha
      rw [splitNl_cons_nl]
      cases y2 with
      | nil =>
        exfalso
        have h1 : isWs '\n' = false := hlast '\n' (by simp)
        exact absurd h1 (by decide)
      | cons b y3 =>
        have hb : isWs b = false := by
          cases hx : isWs b
          · rfl
          · exact absurd ⟨rfl, hx⟩ (hR b rfl).2
        have hbnl : b ≠ '\n' := ws_ne_nl_of_false hb
        have hlast2 : ∀ c ∈ (b :: y3).getLast?, isWs c = false := by
          intro c hc
          apply hlast
          rw [List.getLast?_cons_cons]
          exact hc
        have ihh := ih hch2 hlast2
        obtain ⟨h2, t2, hsp2, hsp⟩ := splitNl_cons_not_nl hbnl y3
        constructor
        · intro l hl
          rw [List.tail_cons, hsp] at hl
          rcases List.mem_cons.mp hl with rfl | hl2
          · refine ⟨by simp, ?_, ?_⟩
            · intro c hc
              simp only [List.head?_cons, Option.mem_def, Option.some.injEq] at hc
              subst hc
              exact hb
            · intro c hc
              exact ihh.2 (b :: h2)
                (show _ ∈ (splitNl (b :: y3)).head? by rw [hsp]; rfl) c hc
          · exact ihh.1 l (show l ∈ (splitNl (b :: y3)).tail by rw [hsp]; exact hl2)
        · intro h hh c hc
          simp only [List.head?_cons, Option.mem_def, Option.some.injEq] at hh
          subst hh
          simp at hc
    · obtain ⟨h2, t2, hsp2, hsp⟩ := splitNl_cons_not_nl ha y2
      have hlast2 : ∀ c ∈ y2.getLast?, isWs c = false := by
        cases y2 with
        | nil => intro c hc; simp at hc
        | cons b y3 =>
          intro c hc
          apply hlast
          rw [List.getLast?_cons_cons]
          exact hc
      have ihh := ih hch2 hlast2
      rw [hsp]
      constructor
      · intro l hl
        rw [List.tail_cons] at hl
        exact ihh.1 l (show l ∈ (splitNl y2).tail by rw [hsp2]; exact hl)
      · intro h hh c hc
        simp only [List.head?_cons, Option.mem_def, Option.some.injEq] at hh
        subst hh
        cases hh2 : h2 with
        | nil =>
          rw [hh2] at hc
          have hca : a = c := by simpa using hc
          rw [← hca]
          cases y2 with
          | nil =>
            apply hlast
            simp
          | cons b y3 =>
            have hbnl : b = '\n' := by
              by_contra hbn
              obtain ⟨h3, t3, _, hsp3⟩ := splitNl_cons_not_nl hbn y3
              rw [hh2] at hsp2
              rw [hsp3] at hsp2
              simp at hsp2
            subst hbnl
            cases hx : isWs a
            · rfl
            · exact absurd ⟨hx, rfl⟩ (hR '\n' rfl).1
        | cons d h3 =>
          rw [hh2, List.getLast?_cons_cons] at hc
          exact ihh.2 h2 (show h2 ∈ (splitNl y2).head? by rw [hsp2]; rfl) c
            (by rw [hh2]; exact hc)

theorem tidy_lines (y : Str) (hT : Tidy y) (hne : y ≠ []) :
    ∀ l ∈ splitNl y,
      l ≠ [] ∧ (∀ c ∈ l.head?, isWs c = false) ∧ (∀ c ∈ l.getLast?, isWs c = false) := by
  obtain ⟨hch, hhead, hlast⟩ := hT
  cases y with
  | nil => exact absurd rfl hne
  | cons a y2 =>
    have ha : isWs a = false := hhead a rfl
    have hanl : a ≠ '\n' := ws_ne_nl_of_false ha
    obtain ⟨h2, t2, hsp2, hsp⟩ := splitNl_cons_not_nl hanl y2
    have aux := tidy_split_aux (a :: y2) hch hlast
    intro l hl
    rw [hsp] at hl
    rcases List.mem_cons.mp hl with rfl | hl2
    · refine ⟨by simp, ?_, ?_⟩
      · intro c hc
        simp only [List.head?_cons, Option.mem_def, Option.some.injEq] at hc
        subst hc
        exact ha
      · intro c hc
        exact aux.2 (a :: h2)
          (show _ ∈ (splitNl (a :: y2)).head? by rw [hsp]; rfl) c hc
    · exact aux.1 l (show l ∈ (splitNl (a :: y2)).tail by rw [hsp]; exact hl2)

theorem normalizeWhitespace_id {y : Str} (hT : Tidy y) : normalizeWhitespace y = y := by
  by_cases hne : y = []
  · subst hne
    rfl
  · have hlines := tidy_lines y hT hne
    unfold normalizeWhitespace
    have hmap : ∀ l ∈ splitNl y, trimStr l = l := by
      intro l hl
      obtain ⟨_, hh, hl2⟩ := hlines l hl
      exact trimStr_eq_self hh hl2
    rw [map_eq_self trimStr (splitNl y) hmap]
    have hfil : List.filter (fun l => !l.isEmpty) (splitNl y) = splitNl y := by
      rw [List.filter_eq_self]
      intro l hl
      have h1 := (hlines l hl).1
      cases l with
      | nil => exact absurd rfl h1
      | cons c cs => rfl
    rw [hfil, joinNl_splitNl]

/-! ## C9: renaming preserves tidiness -/

theorem unchunk_cons2 (a : Bool × Str) (L : List (Bool × Str)) :
    unchunk (a :: L) = a.2 ++ unchunk L := by
  simp [unchunk]

theorem chain'_RNl_of_word : ∀ (l : Str), (∀ c ∈ l, isWordChar c = true) → l.Chain' RNl := by
  intro l
  induction l with
  | nil => intro _; exact List.chain'_nil
  | cons a l2 ih =>
    intro h
    rw [List.chain'_cons']
    refine ⟨?_, ih (fun c hc => h c (List.mem_cons_of_mem _ hc))⟩
    intro b _
    exact RNl_word_left (h a (List.mem_cons_self _ _))

theorem head_some_of_ne_nil {α : Type} {l : List α} (h : l ≠ []) : ∃ w, l.head? = some w := by
  cases l with
  | nil => exact absurd rfl h
  | cons a l2 => exact ⟨a, rfl⟩

theorem last_some_of_ne_nil {α : Type} {l : List α} (h : l ≠ []) : ∃ w, l.getLast? = some w := by
  cases hx : l.getLast? with
  | none => exact absurd (List.getLast?_eq_none_iff.mp hx) h
  | some w => exact ⟨w, rfl⟩

theorem runRel_snd_ne_nil {a b : Bool × Str} (h : RunRel a b) : b.2 ≠ [] := by
  rcases h with ⟨_, hba, hne⟩ | ⟨_, _, _, hbne, _, _⟩
  · rw [hba]
    exact hne
  · exact hbne

theorem forall₂_unchunk_nil {L L2 : List (Bool × Str)} (h : List.Forall₂ RunRel L L2) :
    unchunk L2 = [] → unchunk L = [] := by
  cases h with
  | nil => intro _; rfl
  | cons hab htail =>
    intro hnil
    rw [unchunk_cons2] at hnil
    exact absurd (List.append_eq_nil.mp hnil).1 (runRel_snd_ne_nil hab)

theorem forall₂_head {L L2 : List (Bool × Str)} (h : List.Forall₂ RunRel L L2) :
    ∀ c ∈ (unchunk L2).head?, (c ∈ (unchunk L).head?) ∨ isWordChar c = true := by
  induction h with
  | nil => intro c hc; simp [unchunk] at hc
  | cons hab htail ih =>
    rename_i a b L1 L3
    intro c hc
    rw [unchunk_cons2, List.head?_append] at hc
    rcases hab with ⟨_, hba, hne⟩ | ⟨_, _, _, hbne, _, hbw⟩
    · subst hba
      left
      rw [unchunk_cons2, List.head?_append]
      obtain ⟨w, hw⟩ := head_some_of_ne_nil hne
      rw [hw, Option.or_some] at hc ⊢
      exact hc
    · right
      obtain ⟨w, hw⟩ := head_some_of_ne_nil hbne
      rw [hw, Option.or_some] at hc
      exact hbw c (List.mem_of_mem_head? (by rw [hw]; exact hc))

theorem forall₂_last {L L2 : List (Bool × Str)} (h : List.Forall₂ RunRel L L2) :
    ∀ c ∈ (unchunk L2).getLast?, (c ∈ (unchunk L).getLast?) ∨ isWordChar c = true := by
  induction h with
  | nil => intro c hc; simp [unchunk] at hc
  | cons hab htail ih =>
    rename_i a b L1 L3
    intro c hc
    rw [unchunk_cons2, List.getLast?_append] at hc
    by_cases hL3 : unchunk L3 = []
    · have hL1 : unchunk L1 = [] := forall₂_unchunk_nil htail hL3
      rw [hL3] at hc
      simp only [List.getLast?_nil, Option.none_or] at hc
      rcases hab with ⟨_, hba, hne⟩ | ⟨_, _, _, hbne, _, hbw⟩
      · subst hba
        left
        rw [unchunk_cons2, hL1, List.append_nil]
        exact hc
      · right
        exact hbw c (List.mem_of_mem_getLast? hc)
    · obtain ⟨w, hw⟩ := last_some_of_ne_nil hL3
      rw [hw, Option.or_some] at hc
      rcases ih c (by rw [hw]; exact hc) with hmem | hword
      · left
        rw [unchunk_cons2, List.getLast?_append]
        by_cases hL1 : unchunk L1 = []
        · rw [hL1] at hmem
          simp at hmem
        · obtain ⟨w2, hw2⟩ := last_some_of_ne_nil hL1
          rw [hw2, Option.or_some]
          rw [hw2] at hmem
          exact hmem
      · right
        exact hword

theorem forall₂_chain {L L2 : List (Bool × Str)} (h : List.Forall₂ RunRel L L2)
    (hch : (unchunk L).Chain' RNl) : (unchunk L2).Chain' RNl := by
  induction h with
  | nil => exact List.chain'_nil
  | cons hab htail ih =>
    rename_i a b L1 L3
    rw [unchunk_cons2, List.chain'_append] at hch ⊢
    obtain ⟨hc1, hc2, hjunc⟩ := hch
    refine ⟨?_, ih hc2, ?_⟩
    · rcases hab with ⟨_, hba, _⟩ | ⟨_, _, _, _, _, hbw⟩
      · rw [hba]
        exact hc1
      · exact chain'_RNl_of_word b.2 hbw
    · intro x hx z hz
      rcases hab with ⟨_, hba, _⟩ | ⟨_, _, _, _, _, hbw⟩
      · subst hba
        rcases forall₂_head htail z hz with hzm | hzw
        · exact hjunc x hx z hzm
        · exact RNl_word_right hzw
      · exact RNl_word_left (hbw x (List.mem_of_mem_getLast? hx))

theorem Tidy_forall₂ {L L2 : List (Bool × Str)} (h : List.Forall₂ RunRel L L2)
    (hT : Tidy (unchunk L)) : Tidy (unchunk L2) := by
  obtain ⟨hch, hhead, hlast⟩ := hT
  refine ⟨forall₂_chain h hch, ?_, ?_⟩
  · intro c hc
    rcases forall₂_head h c hc with hm | hw
    · exact hhead c hm
    · exact word_not_ws hw
  · intro c hc
    rcases forall₂_last h c hc with hm | hw
    · exact hlast c hm
    · exact word_not_ws hw

theorem forall₂_map_self {α β : Type} {R : α → β → Prop} (f : α → β) :
    ∀ (l : List α), (∀ a ∈ l, R a (f a)) → List.Forall₂ R l (l.map f) := by
  intro l
  induction l with
  | nil => intro _; exact List.Forall₂.nil
  | cons a l2 ih =>
    intro h
    exact List.Forall₂.cons (h a (List.mem_cons_self _ _))
      (ih (fun x hx => h x (List.mem_cons_of_mem _ hx)))

theorem runRel_substList {m : List (Str × Str)} (hm : ∀ e ∈ m, wordStr e.2)
    {L : List (Bool × Str)} (hL : ∀ bc ∈ L, ChunkOk bc) :
    List.Forall₂ RunRel L (substList m L) := by
  unfold substList
  apply forall₂_map_self
  intro bc hbc
  obtain ⟨hne, huni⟩ := hL bc hbc
  by_cases hb : bc.1 = true
  · rw [if_pos hb]
    right
    refine ⟨hb, hb, hne, ?_, fun c hc => by rw [huni c hc]; exact hb, ?_⟩
    · cases halk : alookup m bc.2 with
      | none =>
        simp only [Option.getD_none]
        exact hne
      | some v =>
        simp only [Option.getD_some]
        exact (hm (bc.2, v) (alookup_mem halk)).1
    · cases halk : alookup m bc.2 with
      | none =>
        simp only [Option.getD_none]
        intro c hc
        rw [huni c hc]
        exact hb
      | some v =>
        simp only [Option.getD_some]
        exact (hm (bc.2, v) (alookup_mem halk)).2
  · rw [if_neg hb]
    left
    exact ⟨Bool.eq_false_iff.mpr hb, rfl, hne⟩

theorem Tidy_rename {y : Str} (hT : Tidy y)
    (hnc : ∀ t ∈ identTokens y, isCanonVar t = false) :
    Tidy (normalizeVariableNames y) := by
  rw [rename_eq_subst y hnc]
  refine Tidy_forall₂ (runRel_substList ?_ (WF_chunks y).1) ?_
  · intro e he
    exact (bm_word_hyp e he).2
  · rw [unchunk_chunks]
    exact hT

/-! ## C9: idempotence of normalizeCode -/

theorem normalizeCode_true (c : Str) :
    normalizeCode c true = normalizeVariableNames (normalizeWhitespace (removeComments c)) := rfl

/-- C9 counterexample: normalization is NOT idempotent.  On the input
`"a var0"` the first pass maps the identifier `a` to `var0` and then
the pre-existing token `var0` to `var1`; the sequential word-boundary
replacement `a -> var0` first turns the text into `var0 var0`, after
which `var0 -> var1` rewrites both occurrences, yielding `var1 var1`.
The second pass renames `var1 var1` to `var0 var0`, a different
string. -/
theorem C9_not_idempotent_counterexample :
    normalizeCode (normalizeCode (S "a var0") true) true ≠ normalizeCode (S "a var0") true := by
  decide

/-- C9 (amended): on inputs without string-delimiter quote characters
and whose comment-stripped, whitespace-normalized text contains no
identifier token already of the generated shape `var<digits>`, the full
normalization pipeline is idempotent:
`normalizeCode (normalizeCode s true) true = normalizeCode s true`. -/
theorem C9_idempotent_restricted (s : Str) (h : C9hyp s) :
    normalizeCode (normalizeCode s true) true = normalizeCode s true := by
  obtain ⟨hq1, hq2, hnc⟩ := h
  have hrc : removeComments s = removeHashComments s := removeComments_eq_hash hq1 hq2
  rw [hrc] at hnc
  have hy1 : '#' ∉ normalizeWhitespace (removeHashComments s) :=
    fun hm => hash_free s (mem_normalizeWhitespace (by decide) hm)
  have hy2 : '"' ∉ normalizeWhitespace (removeHashComments s) :=
    fun hm => hq1 (mem_removeHashComments (mem_normalizeWhitespace (by decide) hm))
  have hy3 : '\'' ∉ normalizeWhitespace (removeHashComments s) :=
    fun hm => hq2 (mem_removeHashComments (mem_normalizeWhitespace (by decide) hm))
  have hTy : Tidy (normalizeWhitespace (removeHashComments s)) :=
    Tidy_normalizeWhitespace _
  have ht1 : '#' ∉ normalizeVariableNames (normalizeWhitespace (removeHashComments s)) := by
    intro hm
    rcases mem_normalizeVariableNames hm with hm2 | hw
    · exact hy1 hm2
    · exact absurd hw (by decide)
  have ht2 : '"' ∉ normalizeVariableNames (normalizeWhitespace (removeHashComments s)) := by
    intro hm
    rcases mem_normalizeVariableNames hm with hm2 | hw
    · exact hy2 hm2
    · exact absurd hw (by decide)
  have ht3 : '\'' ∉ normalizeVariableNames (normalizeWhitespace (removeHashComments s)) := by
    intro hm
    rcases mem_normalizeVariableNames hm with hm2 | hw
    · exact hy3 hm2
    · exact absurd hw (by decide)
  have hTt : Tidy (normalizeVariableNames (normalizeWhitespace (removeHashComments s))) :=
    Tidy_rename hTy hnc
  rw [normalizeCode_true, normalizeCode_true, hrc]
  rw [removeComments_id ht1 ht2 ht3]
  rw [normalizeWhitespace_id hTt]
  exact rename_fixed _ hnc

/-- C9 witness: the hypotheses of the amended claim are satisfiable;
the concrete program `"a=1\nb=a"` has no quotes and no `var<digits>`
token, and normalizing it twice equals normalizing it once. -/
theorem C9_idempotent_restricted_witness :
    C9hyp (S "a=1\nb=a")
      ∧ normalizeCode (normalizeCode (S "a=1\nb=a") true) true
          = normalizeCode (S "a=1\nb=a") true :=
  ⟨by unfold C9hyp; decide, C9_idempotent_restricted _ (by unfold C9hyp; decide)⟩

end PC
